import Mathlib

set_option maxHeartbeats 1000000
set_option maxRecDepth 10000

namespace TabletopAtlas

/-!  Shallow embedding of the retrieval core of the tabletop-atlas backend.

Strings are modelled as `List Char`; Rust byte lengths (`str::len`) coincide
with character counts on ASCII input, and all length constants in the source
are compared against ASCII-dominated rule text.  Rust `char::is_whitespace`,
`is_uppercase`, `is_numeric`, `to_lowercase` are modelled by their ASCII
restrictions. -/

/-- Rust `str::trim` whitespace test (ASCII subset). -/
def isWs (c : Char) : Bool :=
  c == ' ' || c == '\t' || c == '\n' || c == '\r'

/-- Left trim, as in Rust `str::trim_start`. -/
def trimLeft (l : List Char) : List Char := l.dropWhile isWs

/-- Rust `str::trim`: drop whitespace from both ends. -/
def myTrim (l : List Char) : List Char :=
  ((trimLeft l).reverse.dropWhile isWs).reverse

/-- `Vec::join(" ")`: interleave single spaces between the pieces. -/
def joinSp : List (List Char) → List Char
  | [] => []
  | [s] => s
  | s :: rest => s ++ ' ' :: joinSp rest

/-- Prepend a character onto the first segment. -/
def consHead (c : Char) : List (List Char) → List (List Char)
  | [] => [[c]]
  | seg :: segs => (c :: seg) :: segs

/-- Split on a separator character, keeping (possibly empty) segments.
Models Rust `str::lines` for the purposes of `clean_text`: the segments are
immediately trimmed and empty ones dropped there, which erases the
`\r\n` / trailing-newline special cases of `lines`. -/
def splitOnChar (sep : Char) : List Char → List (List Char)
  | [] => [[]]
  | c :: rest =>
    if c == sep then [] :: splitOnChar sep rest
    else consHead c (splitOnChar sep rest)

/-- Rust `str::replace("  ", " ")`: non-overlapping left-to-right replacement
of double spaces by single spaces. -/
def replaceDoubleSpace : List Char → List Char
  | [] => []
  | [c] => [c]
  | c1 :: c2 :: rest =>
    if c1 == ' ' && c2 == ' ' then ' ' :: replaceDoubleSpace rest
    else c1 :: replaceDoubleSpace (c2 :: rest)

/-- Rust `str::contains` (substring search). -/
def containsList : List Char → List Char → Bool
  | [], pat => pat.isEmpty
  | c :: rest, pat => pat.isPrefixOf (c :: rest) || containsList rest pat

/-! ## Chunker (src/backend/src/pdf.rs) -/

def CHUNK_SIZE : Nat := 1000
def CHUNK_OVERLAP : Nat := 300
def MIN_CHUNK_SIZE : Nat := 100
def MAX_CHUNK_SIZE : Nat := 1500

/-- `Processor::clean_text`: per-line trim, drop empty lines, join with single
spaces, collapse double spaces once, trim. -/
def clean_text (text : List Char) : List Char :=
  myTrim (replaceDoubleSpace (joinSp
    (((splitOnChar '\n' text).map myTrim).filter (fun l => !l.isEmpty))))

/-- The abbreviation list of `Processor::is_sentence_end`. -/
def abbreviations : List (List Char) :=
  ["vs".toList, "etc".toList, "e.g".toList, "i.e".toList, "mr".toList,
   "mrs".toList, "dr".toList, "no".toList, "inc".toList, "ltd".toList]

/-- The backward scan of `is_sentence_end`'s numbered-list check:
`while j > 0 && (chars[j].is_numeric() || chars[j] == ' ') { j -= 1 }`. -/
def numberScanBack (chars : List Char) : Nat → Nat
  | 0 => 0
  | j + 1 =>
    let c := chars.getD (j + 1) ' '
    if c.isDigit || c == ' ' then numberScanBack chars j else j + 1

/-- The forward scan of `is_sentence_end`: skip whitespace and quote/bracket
characters starting at `i`, returning the first other position.  The loop
advances by one position per step, so `chars.length - i` steps of fuel make
the fueled recursion exact. -/
def skipAheadFuel (chars : List Char) : Nat → Nat → Nat
  | 0, i => i
  | fuel + 1, i =>
    if h : i < chars.length then
      let c := chars.get ⟨i, h⟩
      if c == ' ' || c == '\t' || c == '\n' || c == '"' || c == '\'' ||
         c == ')' || c == ']' || c == '}' then
        skipAheadFuel chars fuel (i + 1)
      else i
    else i

def skipAhead (chars : List Char) (i : Nat) : Nat :=
  skipAheadFuel chars (chars.length - i) i

/-- `Processor::is_sentence_end`.  Out-of-range indexing is modelled with a
default character; all call sites pass in-range positions. -/
def is_sentence_end (chars : List Char) (pos : Nat) : Bool :=
  let ch := chars.getD pos ' '
  if !(ch == '.' || ch == '!' || ch == '?') then false
  else
    let abbrevBlocked :=
      if ch == '.' then
        let start := pos - 10
        let before := (chars.drop start).take (pos - start)
        let beforeLower := before.map Char.toLower
        abbreviations.any (fun a => a.isSuffixOf beforeLower)
      else false
    let numberBlocked :=
      if ch == '.' && decide (0 < pos) && (chars.getD (pos - 1) ' ').isDigit then
        let j := numberScanBack chars (pos - 1)
        j == 0 || chars.getD j ' ' == '\n'
      else false
    if abbrevBlocked || numberBlocked then false
    else
      let nextPos := skipAhead chars (pos + 1)
      if chars.length ≤ nextPos then true
      else
        let nextChar := chars.getD nextPos ' '
        nextChar.isUpper || nextChar.isDigit

/-- The inner swallow loop of `split_into_sentences`: consume trailing
quotes/brackets/spaces after a sentence end, pushing the non-space ones onto
the (reversed) current sentence.  Returns the new accumulator and the number
of consumed characters. -/
def swallowTrailingFuel (chars : List Char) : Nat → Nat → List Char →
    List Char × Nat
  | 0, _, acc => (acc, 0)
  | fuel + 1, i, acc =>
    if h : i < chars.length then
      let c := chars.get ⟨i, h⟩
      if c == '"' || c == '\'' || c == ')' || c == ']' || c == '}' ||
         c == ' ' || c == '\t' then
        let r :=
          if c == ' ' || c == '\t' then swallowTrailingFuel chars fuel (i + 1) acc
          else swallowTrailingFuel chars fuel (i + 1) (c :: acc)
        (r.1, r.2 + 1)
      else (acc, 0)
    else (acc, 0)

def swallowTrailing (chars : List Char) (i : Nat) (acc : List Char) :
    List Char × Nat :=
  swallowTrailingFuel chars (chars.length - i) i acc

/-- The scanning loop of `Processor::split_into_sentences`.  The current
sentence is accumulated in reverse (the Rust code pushes onto the end of a
growing `String`). -/
def split_go (chars : List Char) : Nat → Nat → List Char →
    List (List Char) → List (List Char)
  | fuel + 1, i, current, sentences =>
    if h : i < chars.length then
      let ch := chars.get ⟨i, h⟩
      let current1 := ch :: current
      if (ch == '.' || ch == '!' || ch == '?') && is_sentence_end chars i then
        let p := swallowTrailing chars (i + 1) current1
        let sentence := myTrim p.1.reverse
        if sentence ≠ [] ∧ 10 < sentence.length then
          split_go chars fuel (i + 1 + p.2) [] (sentences ++ [sentence])
        else
          split_go chars fuel (i + 1 + p.2) [] sentences
      else
        split_go chars fuel (i + 1) current1 sentences
    else
      let final := myTrim current.reverse
      if final ≠ [] ∧ 10 < final.length then sentences ++ [final]
      else sentences
  | 0, _, current, sentences =>
    let final := myTrim current.reverse
    if final ≠ [] ∧ 10 < final.length then sentences ++ [final]
    else sentences

/-- `Processor::split_into_sentences`.  The scanning index advances by at
least one per step, so `text.length` steps of fuel are enough for the fueled
loop to reach the end of the input. -/
def split_into_sentences (text : List Char) : List (List Char) :=
  split_go text text.length 0 [] []

/-- `Processor::is_good_chunk_boundary`. -/
def is_good_chunk_boundary (sentence : List Char) : Bool :=
  let lower := sentence.map Char.toLower
  containsList lower "therefore".toList ||
  containsList lower "thus".toList ||
  containsList lower "finally".toList ||
  containsList lower "in conclusion".toList ||
  "wins.".toList.isSuffixOf lower ||
  "wins!".toList.isSuffixOf lower ||
  "complete.".toList.isSuffixOf lower ||
  "finished.".toList.isSuffixOf lower ||
  !(containsList lower "first".toList ||
    containsList lower "then".toList ||
    containsList lower "next".toList ||
    containsList lower "after".toList ||
    containsList lower "before".toList ||
    ":".toList.isSuffixOf lower)

/-- The loop of `Processor::create_sentence_overlap`: walk the buffer from the
back, prepending sentences while the running length (sentence lengths plus one
separator each) stays within the overlap budget. -/
def overlap_go : List (List Char) → List Char → Nat → List Char
  | [], overlap, _ => overlap
  | s :: rest, overlap, currentLength =>
    if currentLength + s.length ≤ CHUNK_OVERLAP then
      overlap_go rest (if overlap = [] then s else s ++ ' ' :: overlap)
        (currentLength + s.length + 1)
    else overlap

/-- `Processor::create_sentence_overlap`. -/
def create_sentence_overlap (sentences : List (List Char)) : List Char :=
  if sentences = [] then [] else overlap_go sentences.reverse [] 0

/-- State of the chunking loop of `Processor::chunk_text`. -/
structure ChunkState where
  chunks : List (List Char)
  current_chunk : List Char
  sentence_buffer : List (List Char)
deriving Repr, DecidableEq

/-- Finalize the current chunk and seed the next one with sentence overlap,
as done at both chunk-closing sites of `chunk_text`. -/
def close_chunk (st : ChunkState) : ChunkState :=
  { chunks := st.chunks ++ [myTrim st.current_chunk],
    current_chunk := create_sentence_overlap st.sentence_buffer,
    sentence_buffer := [] }

/-- Appending a sentence to the current chunk: a separating space is written
only when the chunk is non-empty. -/
def appendSentence (current : List Char) (sentence : List Char) : List Char :=
  if current = [] then sentence else current ++ ' ' :: sentence

/-- One iteration of the `for sentence in sentences` loop of `chunk_text`. -/
def chunk_step (st : ChunkState) (sentence0 : List Char) : ChunkState :=
  let sentence := myTrim sentence0
  if sentence = [] then st
  else
    let st1 :=
      if st.current_chunk ≠ [] ∧
         MAX_CHUNK_SIZE < st.current_chunk.length + sentence.length + 1 ∧
         MIN_CHUNK_SIZE ≤ st.current_chunk.length
      then close_chunk st else st
    let st2 : ChunkState :=
      { chunks := st1.chunks,
        current_chunk := appendSentence st1.current_chunk sentence,
        sentence_buffer := st1.sentence_buffer ++ [sentence] }
    if CHUNK_SIZE ≤ st2.current_chunk.length ∧
       is_good_chunk_boundary sentence = true
    then close_chunk st2 else st2

/-- The final step of `chunk_text`: emit the accumulated chunk when it
reaches the minimum size. -/
def chunk_finalize (final : ChunkState) : List (List Char) :=
  if MIN_CHUNK_SIZE ≤ (myTrim final.current_chunk).length then
    final.chunks ++ [myTrim final.current_chunk]
  else final.chunks

/-- `Processor::chunk_text`. -/
def chunk_text (text : List Char) : List (List Char) :=
  if myTrim text = [] then []
  else if split_into_sentences (clean_text text) = [] then []
  else
    chunk_finalize
      ((split_into_sentences (clean_text text)).foldl chunk_step ⟨[], [], []⟩)

/-! ## Embedding model types (src/backend/src/models/embedding.rs) -/

/-- `EmbeddingSourceType`. -/
inductive EmbeddingSourceType where
  | RulesPdf
  | HouseRule
deriving Repr, DecidableEq

/-- `EmbeddingSourceType::as_str`. -/
def EmbeddingSourceType.as_str : EmbeddingSourceType → String
  | .RulesPdf => "rules_pdf"
  | .HouseRule => "house_rule"

/-- `EmbeddingSourceType::from_str`. -/
def EmbeddingSourceType.from_str (s : String) : Option EmbeddingSourceType :=
  if s = "rules_pdf" then some .RulesPdf
  else if s = "house_rule" then some .HouseRule
  else none

/-! ## Cosine similarity (src/backend/src/models/embedding.rs)

`f32` arithmetic is idealized as exact real arithmetic; the control flow
(length guard, zero-magnitude guard) is modelled exactly. -/

/-- The dot product of `Embedding::cosine_similarity`:
`iter().zip(...).map(|(a, b)| a * b).sum()`. -/
noncomputable def dot_product (a b : List ℝ) : ℝ :=
  ((a.zip b).map (fun p => p.1 * p.2)).sum

/-- The L2 norm computed in `cosine_similarity`:
`iter().map(|x| x * x).sum().sqrt()`. -/
noncomputable def magnitude (v : List ℝ) : ℝ :=
  Real.sqrt ((v.map (fun x => x * x)).sum)

open Classical in
/-- `Embedding::cosine_similarity`. -/
noncomputable def cosine_similarity (a b : List ℝ) : ℝ :=
  if a.length ≠ b.length then 0
  else if magnitude a = 0 ∨ magnitude b = 0 then 0
  else dot_product a b / (magnitude a * magnitude b)

/-! ## Embedding client (src/backend/src/embeddings.rs)

The OpenAI-compatible HTTP call is modelled as an oracle
`service : List String → Except EmbedError (List EmbeddingDatum)`; everything
after the response arrives is modelled from the source. -/

/-- One item of the embeddings response, tagged with its input index. -/
structure EmbeddingDatum where
  index : Nat
  embedding : List ℚ
deriving Repr, DecidableEq

/-- Errors of `Embedder::generate_embeddings`. -/
inductive EmbedError where
  | serviceError (msg : String)
  | countMismatch (expected got : Nat)
deriving Repr, DecidableEq

/-- The sort key relation of `data.sort_by_key(|d| d.index)`. -/
def indexLe (d1 d2 : EmbeddingDatum) : Prop := d1.index ≤ d2.index

instance : DecidableRel indexLe := fun d1 d2 => Nat.decLe d1.index d2.index

instance : IsTotal EmbeddingDatum indexLe := ⟨fun a b => Nat.le_total a.index b.index⟩

instance : IsTrans EmbeddingDatum indexLe := ⟨fun _ _ _ => Nat.le_trans⟩

/-- `data.sort_by_key(|d| d.index)` — a stable sort on the index tag. -/
def sortByIndex (data : List EmbeddingDatum) : List EmbeddingDatum :=
  data.insertionSort indexLe

/-- `Embedder::generate_embeddings`. -/
def generate_embeddings (texts : List String)
    (service : List String → Except EmbedError (List EmbeddingDatum)) :
    Except EmbedError (List (List ℚ)) :=
  if texts.isEmpty then .ok []
  else
    match service texts with
    | .error e => .error e
    | .ok data =>
      if data.length ≠ texts.length then
        .error (.countMismatch texts.length data.length)
      else
        .ok ((sortByIndex data).map (fun d => d.embedding))

/-! ## Vector store (src/backend/src/db/embeddings.rs, src/backend/src/db/mod.rs)

The two SQLite tables are modelled as row lists; `last_insert_rowid` is
modelled by a monotone rowid counter.  Failures of `serde_json::to_string`
and of the SQL `execute` calls are decided by an environment of oracles, so
the model is deterministic given the environment. -/

/-- A row of the `embeddings` table. -/
structure EmbRow where
  id : Int
  game_id : Int
  chunk_text : String
  chunk_index : Int
  source_type : String
  source_id : Option Int
  metadata : Option String
  created_at : String
deriving Repr, DecidableEq

/-- A row of the `vec_embeddings` virtual table. -/
structure VecRow where
  rowid : Int
  embedding_vector : String
deriving Repr, DecidableEq

/-- The SQLite database state behind `Database`. -/
structure DbState where
  embeddings : List EmbRow
  vec_embeddings : List VecRow
  next_rowid : Int
deriving Repr, DecidableEq

/-- `rusqlite` errors relevant to the modelled operations. -/
inductive SqliteError where
  | toSqlConversionFailure
  | executeFailure
  | commitFailure
deriving Repr, DecidableEq

/-- `CreateEmbeddingRequest`. -/
structure CreateEmbeddingRequest where
  game_id : Int
  chunk_text : String
  embedding : List ℚ
  chunk_index : Int
  source_type : EmbeddingSourceType
  source_id : Option Int
  metadata : Option String
deriving Repr, DecidableEq

/-- Failure oracles for the fallible primitives used by the batch insert. -/
structure SqlEnv where
  serialize_fails : List ℚ → Bool
  insert_embedding_fails : EmbRow → Bool
  insert_vec_fails : VecRow → Bool
  commit_fails : Bool

/-- `serde_json::to_string(&embedding)` (rendering details irrelevant to the
claims; only success/failure and injectivity-free equality matter). -/
def serialize_embedding (v : List ℚ) : String :=
  "[" ++ String.intercalate "," (v.map (fun q => toString q)) ++ "]"

/-- `Database::with_transaction`: run `f` against the transaction; an error
from `f` (or a failing commit) rolls the state back to the initial one. -/
def with_transaction {R : Type} (env : SqlEnv) (db : DbState)
    (f : DbState → Except SqliteError (DbState × R)) :
    DbState × Except SqliteError R :=
  match f db with
  | .error e => (db, .error e)
  | .ok (db2, r) =>
    if env.commit_fails then (db, .error .commitFailure) else (db2, .ok r)

/-- The row the batch loop inserts for one request. -/
def requestRow (now : String) (rowid : Int) (req : CreateEmbeddingRequest) :
    EmbRow :=
  ⟨rowid, req.game_id, req.chunk_text, req.chunk_index,
    req.source_type.as_str, req.source_id, req.metadata, now⟩

/-- The `for request in requests` loop of `create_embeddings_batch`:
serialize the vector, insert the `embeddings` row, read
`last_insert_rowid()`, insert the `vec_embeddings` row, collect the id. -/
def create_embeddings_batch_go (env : SqlEnv) (now : String) :
    List CreateEmbeddingRequest → DbState → List Int →
    Except SqliteError (DbState × List Int)
  | [], db, ids => .ok (db, ids)
  | req :: rest, db, ids =>
    if env.serialize_fails req.embedding then .error .toSqlConversionFailure
    else
      let json := serialize_embedding req.embedding
      let row := requestRow now db.next_rowid req
      if env.insert_embedding_fails row then .error .executeFailure
      else
        let db1 : DbState :=
          ⟨db.embeddings ++ [row], db.vec_embeddings, db.next_rowid + 1⟩
        let embeddingId := row.id
        let vrow : VecRow := ⟨embeddingId, json⟩
        if env.insert_vec_fails vrow then .error .executeFailure
        else
          let db2 : DbState :=
            ⟨db1.embeddings, db1.vec_embeddings ++ [vrow], db1.next_rowid⟩
          create_embeddings_batch_go env now rest db2 (ids ++ [embeddingId])

/-- `create_embeddings_batch`: the batch loop wrapped in
`Database::with_transaction`. -/
def create_embeddings_batch (env : SqlEnv) (now : String)
    (requests : List CreateEmbeddingRequest) (db : DbState) :
    DbState × Except SqliteError (List Int) :=
  with_transaction env db
    (fun conn => create_embeddings_batch_go env now requests conn [])

/-- The rows a successful batch run appends, with consecutive rowids. -/
def batch_rows (now : String) : Int → List CreateEmbeddingRequest → List EmbRow
  | _, [] => []
  | next, req :: rest => requestRow now next req :: batch_rows now (next + 1) rest

/-- `delete_embeddings_for_game`: `DELETE FROM embeddings WHERE game_id = ?`
with an optional `AND source_type = ?`, returning the number of deleted rows.
The statement touches only the `embeddings` table. -/
def delete_embeddings_for_game (db : DbState) (gameId : Int)
    (sourceType : Option EmbeddingSourceType) : DbState × Nat :=
  let hits := fun (r : EmbRow) =>
    match sourceType with
    | some st => r.game_id == gameId && r.source_type == st.as_str
    | none => r.game_id == gameId
  (⟨db.embeddings.filter (fun r => !(hits r)), db.vec_embeddings,
      db.next_rowid⟩,
    (db.embeddings.filter hits).length)

/-- A row of the `games` table (the fields touched by `delete_rules`). -/
structure GameRow where
  id : Int
  rules_pdf_path : Option String
deriving Repr, DecidableEq

/-- `handlers::upload::delete_rules`, restricted to its database effects: look
up the game (404 when absent), delete this game's `rules_pdf` embeddings, and
clear the game's stored rules.  The physical-file removal has no effect on
either table. -/
def delete_rules (games : List GameRow) (db : DbState) (gameId : Int) :
    Option (List GameRow × DbState × Nat) :=
  match games.find? (fun g => g.id == gameId) with
  | none => none
  | some _ =>
    let d := delete_embeddings_for_game db gameId (some .RulesPdf)
    let games2 := games.map (fun g =>
      if g.id == gameId then { g with rules_pdf_path := none } else g)
    some (games2, d.1, d.2)

/-! ## Similarity search (src/backend/src/db/embeddings.rs)

The sqlite-vec KNN query is modelled as an oracle list of
`(rowid, distance)` pairs; the metadata query is modelled as the list of
`embeddings` rows it returns (those with matching id and game).  Distances
and thresholds are idealized as rationals. -/

/-- One row of the metadata query of `similarity_search`. -/
structure MetaRow where
  id : Int
  chunk_text : String
  source_type : String
  source_id : Option Int
  metadata : Option String
deriving Repr, DecidableEq

/-- `EmbeddingSearchResult`. -/
structure EmbeddingSearchResult where
  id : Int
  chunk_text : String
  similarity_score : ℚ
  source_type : EmbeddingSourceType
  source_id : Option Int
  metadata : Option String
deriving Repr, DecidableEq

/-- The `EmbeddingSearchResult` built for one matched row: the similarity
score is `1.0 - distance`, and the stored source type string is decoded with
`from_str(..).unwrap_or(RulesPdf)`. -/
def resultOfMeta (m : MetaRow) (distance : ℚ) : EmbeddingSearchResult :=
  ⟨m.id, m.chunk_text, 1 - distance,
    (EmbeddingSourceType.from_str m.source_type).getD .RulesPdf,
    m.source_id, m.metadata⟩

/-- The combining loop of `similarity_search`: walk the vector results in
distance order, attach metadata, convert distance to similarity, apply the
threshold, and stop once `limit` results are collected. -/
def similarity_search_combine (meta : List MetaRow) (limit : Nat)
    (threshold : ℚ) :
    List (Int × ℚ) → List EmbeddingSearchResult → List EmbeddingSearchResult
  | [], results => results
  | (rowid, distance) :: rest, results =>
    match meta.find? (fun m => m.id == rowid) with
    | some m =>
      if threshold ≤ 1 - distance then
        let results2 := results ++ [resultOfMeta m distance]
        if limit ≤ results2.length then results2
        else similarity_search_combine meta limit threshold rest results2
      else similarity_search_combine meta limit threshold rest results
    | none => similarity_search_combine meta limit threshold rest results

/-- `similarity_search`, from the point where the two queries returned. -/
def similarity_search (vecResults : List (Int × ℚ)) (meta : List MetaRow)
    (limit : Nat) (threshold : ℚ) : List EmbeddingSearchResult :=
  if vecResults.isEmpty then []
  else similarity_search_combine meta limit threshold vecResults []

/-- Strict lexicographic candidate order: by distance, then by rowid.  This is
the order `ORDER BY distance` produces when equal-distance candidates come
back in rowid order. -/
def distRowidLt (p q : Int × ℚ) : Prop :=
  p.2 < q.2 ∨ (p.2 = q.2 ∧ p.1 < q.1)

/-- Result order: descending similarity score with ascending-id tie break. -/
def scoreRowidOrder (a b : EmbeddingSearchResult) : Prop :=
  b.similarity_score < a.similarity_score ∨
  (a.similarity_score = b.similarity_score ∧ a.id < b.id)

/-- A collected result precedes (in `scoreRowidOrder`) whatever result a
later vector candidate may contribute. -/
def vecKeyOrder (a : EmbeddingSearchResult) (v : Int × ℚ) : Prop :=
  1 - v.2 < a.similarity_score ∨
  (a.similarity_score = 1 - v.2 ∧ a.id < v.1)

/-! ## Auxiliary predicates and concrete inputs used by the statements -/

/-- The first character (if any) is not whitespace. -/
def NoWsHead (l : List Char) : Prop :=
  ∀ c, l.head? = some c → isWs c = false

/-- The last character (if any) is not whitespace. -/
def NoWsLast (l : List Char) : Prop :=
  ∀ c, l.getLast? = some c → isWs c = false

/-- A sentence as it enters the chunking loop: non-empty and trimmed. -/
def SentenceOk (s : List Char) : Prop :=
  s ≠ [] ∧ NoWsHead s ∧ NoWsLast s

/-- The accumulated overlap viewed as a (zero- or one-element) sentence
list. -/
def ovList (overlap : List Char) : List (List Char) :=
  if overlap = [] then [] else [overlap]

/-- Invariant of the chunking loop, for sentence lengths of at most
`MAX_CHUNK_SIZE - CHUNK_OVERLAP - 1` characters: every emitted chunk is
within bounds, the current chunk never exceeds the maximum, and current
chunk and buffer are trimmed. -/
def ChunkInv (st : ChunkState) : Prop :=
  (∀ c ∈ st.chunks, MIN_CHUNK_SIZE ≤ c.length ∧ c.length ≤ MAX_CHUNK_SIZE) ∧
  st.current_chunk.length ≤ MAX_CHUNK_SIZE ∧
  (st.current_chunk = [] ∨
    (NoWsHead st.current_chunk ∧ NoWsLast st.current_chunk)) ∧
  (∀ s ∈ st.sentence_buffer, SentenceOk s)

/-- A 1501-character sentence. -/
def cexS1 : List Char := List.replicate 1500 'a' ++ ['.']

/-- A 101-character sentence. -/
def cexS2 : List Char := List.replicate 100 'B' ++ ['.']

/-- Concrete input whose first sentence alone exceeds the maximum chunk
size. -/
def cexText4 : List Char := cexS1 ++ cexS2

/-- Concrete input without any sentence-ending punctuation whose normalized
length exceeds the maximum chunk size. -/
def cexText5 : List Char := List.replicate 1600 'a'

/-! # Theorems -/

/-! ## Cosine similarity: C8, C9 -/

theorem dot_product_nil_left (b : List ℝ) : dot_product [] b = 0 := by
  simp [dot_product]

theorem dot_product_nil_right (a : List ℝ) : dot_product a [] = 0 := by
  simp [dot_product]

theorem dot_product_cons (x y : ℝ) (xs ys : List ℝ) :
    dot_product (x :: xs) (y :: ys) = x * y + dot_product xs ys := by
  simp [dot_product]

theorem dot_product_comm (a b : List ℝ) : dot_product a b = dot_product b a := by
  induction a generalizing b with
  | nil => cases b <;> simp [dot_product]
  | cons x xs ih =>
    cases b with
    | nil => simp [dot_product]
    | cons y ys => rw [dot_product_cons, dot_product_cons, mul_comm, ih]

theorem dot_product_self (a : List ℝ) :
    dot_product a a = (a.map (fun x => x * x)).sum := by
  induction a with
  | nil => simp [dot_product]
  | cons x xs ih => rw [dot_product_cons, ih]; simp

theorem sumSq_nonneg (a : List ℝ) : 0 ≤ (a.map (fun x => x * x)).sum := by
  induction a with
  | nil => simp
  | cons x xs ih =>
    simp only [List.map_cons, List.sum_cons]
    exact add_nonneg (mul_self_nonneg x) ih

theorem sumSq_pos (a : List ℝ) (h : ∃ x ∈ a, x ≠ 0) :
    0 < (a.map (fun x => x * x)).sum := by
  induction a with
  | nil => simp at h
  | cons y ys ih =>
    rcases h with ⟨x, hx, hne⟩
    simp only [List.mem_cons] at hx
    simp only [List.map_cons, List.sum_cons]
    rcases hx with rfl | hx
    · exact add_pos_of_pos_of_nonneg (mul_self_pos.mpr hne) (sumSq_nonneg ys)
    · exact add_pos_of_nonneg_of_pos (mul_self_nonneg y) (ih ⟨x, hx, hne⟩)

theorem magnitude_pos (a : List ℝ) (h : ∃ x ∈ a, x ≠ 0) : 0 < magnitude a := by
  rw [magnitude]
  exact Real.sqrt_pos.mpr (sumSq_pos a h)

/-- C8: `cosine_similarity` equals the dot product divided by the product of
the two L2 norms, and it returns exactly 0 whenever the vectors have
different lengths or either vector has L2 norm 0. -/
theorem cosine_similarity_formula_and_zero_cases (a b : List ℝ) :
    (a.length ≠ b.length → cosine_similarity a b = 0) ∧
    (magnitude a = 0 → cosine_similarity a b = 0) ∧
    (magnitude b = 0 → cosine_similarity a b = 0) ∧
    (a.length = b.length → magnitude a ≠ 0 → magnitude b ≠ 0 →
      cosine_similarity a b = dot_product a b / (magnitude a * magnitude b)) := by
  refine ⟨fun h => ?_, fun h => ?_, fun h => ?_, fun h1 h2 h3 => ?_⟩
  · rw [cosine_similarity, if_pos h]
  · rw [cosine_similarity]
    by_cases hl : a.length ≠ b.length
    · rw [if_pos hl]
    · rw [if_neg hl, if_pos (Or.inl h)]
  · rw [cosine_similarity]
    by_cases hl : a.length ≠ b.length
    · rw [if_pos hl]
    · rw [if_neg hl, if_pos (Or.inr h)]
  · rw [cosine_similarity, if_neg (by simp [h1]), if_neg (by tauto)]

/-- Witness for C8 at concrete inputs. -/
theorem cosine_similarity_formula_and_zero_cases_witness :
    cosine_similarity [(1 : ℝ)] [2, 3] = 0 ∧
    cosine_similarity [(3 : ℝ)] [4] =
      dot_product [(3 : ℝ)] [4] / (magnitude [(3 : ℝ)] * magnitude [(4 : ℝ)]) := by
  constructor
  · exact (cosine_similarity_formula_and_zero_cases [(1 : ℝ)] [2, 3]).1 (by simp)
  · refine (cosine_similarity_formula_and_zero_cases [(3 : ℝ)] [4]).2.2.2 (by simp) ?_ ?_
    · exact ne_of_gt (magnitude_pos _ ⟨3, by simp, by norm_num⟩)
    · exact ne_of_gt (magnitude_pos _ ⟨4, by simp, by norm_num⟩)

/-- C9: `cosine_similarity` is symmetric, and a non-zero vector has
similarity exactly 1 with itself (in the idealized real-arithmetic model of
the `f32` computation). -/
theorem cosine_similarity_symm_and_self (a b : List ℝ) :
    cosine_similarity a b = cosine_similarity b a ∧
    ((∃ x ∈ a, x ≠ 0) → cosine_similarity a a = 1) := by
  constructor
  · by_cases hl : a.length = b.length
    · have h1 : ¬(a.length ≠ b.length) := by simp [hl]
      have h2 : ¬(b.length ≠ a.length) := by simp [hl]
      rw [cosine_similarity, cosine_similarity, if_neg h1, if_neg h2]
      by_cases hm : magnitude a = 0 ∨ magnitude b = 0
      · rw [if_pos hm, if_pos (Or.comm.mp hm)]
      · rw [if_neg hm, if_neg (fun h => hm (Or.comm.mp h)),
          dot_product_comm, mul_comm]
    · rw [cosine_similarity, cosine_similarity, if_pos hl,
        if_pos (fun h => hl h.symm)]
  · intro h
    have hpos : 0 < (a.map (fun x => x * x)).sum := sumSq_pos a h
    have hmag : magnitude a ≠ 0 := ne_of_gt (magnitude_pos a h)
    rw [cosine_similarity, if_neg (by simp), if_neg (by tauto),
      dot_product_self]
    rw [magnitude, Real.mul_self_sqrt (le_of_lt hpos)]
    exact div_self (ne_of_gt hpos)

/-- Witness for C9 at concrete inputs. -/
theorem cosine_similarity_symm_and_self_witness :
    cosine_similarity [(2 : ℝ)] [5] = cosine_similarity [(5 : ℝ)] [2] ∧
    cosine_similarity [(2 : ℝ)] [2] = 1 :=
  ⟨(cosine_similarity_symm_and_self [(2 : ℝ)] [5]).1,
    (cosine_similarity_symm_and_self [(2 : ℝ)] [2]).2 ⟨2, by simp, by norm_num⟩⟩

/-! ## Similarity search: C2, C3 -/

theorem similarity_search_combine_length_le (meta : List MetaRow)
    (limit : Nat) (threshold : ℚ) (vec : List (Int × ℚ)) :
    ∀ results : List EmbeddingSearchResult, results.length < limit →
      (similarity_search_combine meta limit threshold vec results).length ≤
        limit := by
  induction vec with
  | nil =>
    intro results h
    simpa [similarity_search_combine] using le_of_lt h
  | cons v rest ih =>
    intro results h
    obtain ⟨rowid, distance⟩ := v
    cases hf : meta.find? (fun m => m.id == rowid) with
    | none =>
      simpa [similarity_search_combine, hf] using ih results h
    | some m =>
      simp only [similarity_search_combine, hf]
      by_cases ht : threshold ≤ 1 - distance
      · rw [if_pos ht]
        by_cases hl : limit ≤ (results ++ [resultOfMeta m distance]).length
        · rw [if_pos hl]
          simpa using h
        · rw [if_neg hl]
          refine ih _ ?_
          simp only [List.length_append, List.length_cons, List.length_nil] at hl ⊢
          omega
      · rw [if_neg ht]
        exact ih results h

theorem similarity_search_combine_length_zero (meta : List MetaRow)
    (threshold : ℚ) (vec : List (Int × ℚ)) :
    ∀ results : List EmbeddingSearchResult,
      (similarity_search_combine meta 0 threshold vec results).length ≤
        results.length + 1 := by
  induction vec with
  | nil =>
    intro results
    simp [similarity_search_combine]
  | cons v rest ih =>
    intro results
    obtain ⟨rowid, distance⟩ := v
    cases hf : meta.find? (fun m => m.id == rowid) with
    | none => simpa [similarity_search_combine, hf] using ih results
    | some m =>
      simp only [similarity_search_combine, hf]
      by_cases ht : threshold ≤ 1 - distance
      · rw [if_pos ht, if_pos (Nat.zero_le _)]
        simp
      · rw [if_neg ht]
        exact ih results

theorem similarity_search_combine_threshold (meta : List MetaRow)
    (limit : Nat) (threshold : ℚ) (vec : List (Int × ℚ)) :
    ∀ results : List EmbeddingSearchResult,
      (∀ r ∈ results, threshold ≤ r.similarity_score) →
      ∀ r ∈ similarity_search_combine meta limit threshold vec results,
        threshold ≤ r.similarity_score := by
  induction vec with
  | nil =>
    intro results h
    simpa [similarity_search_combine] using h
  | cons v rest ih =>
    intro results h
    obtain ⟨rowid, distance⟩ := v
    cases hf : meta.find? (fun m => m.id == rowid) with
    | none => simpa [similarity_search_combine, hf] using ih results h
    | some m =>
      simp only [similarity_search_combine, hf]
      by_cases ht : threshold ≤ 1 - distance
      · rw [if_pos ht]
        have hall : ∀ r ∈ results ++ [resultOfMeta m distance],
            threshold ≤ r.similarity_score := by
          intro r hr
          rcases List.mem_append.mp hr with hr | hr
          · exact h r hr
          · simp only [List.mem_singleton] at hr
            subst hr
            simpa [resultOfMeta] using ht
        by_cases hl : limit ≤ (results ++ [resultOfMeta m distance]).length
        · rw [if_pos hl]
          exact hall
        · rw [if_neg hl]
          exact ih _ hall
      · rw [if_neg ht]
        exact ih results h

/-- C2 (amended): `similarity_search` returns at most `limit` results for any
positive `limit` (at most one result when `limit = 0`), and every returned
result clears the similarity threshold. -/
theorem similarity_search_limit_and_threshold (vec : List (Int × ℚ))
    (meta : List MetaRow) (limit : Nat) (threshold : ℚ) :
    (similarity_search vec meta limit threshold).length ≤ max limit 1 ∧
    (1 ≤ limit →
      (similarity_search vec meta limit threshold).length ≤ limit) ∧
    (∀ r ∈ similarity_search vec meta limit threshold,
      threshold ≤ r.similarity_score) := by
  refine ⟨?_, fun hp => ?_, ?_⟩
  · rw [similarity_search]
    by_cases he : vec.isEmpty
    · rw [if_pos he]; simp
    · rw [if_neg he]
      cases limit with
      | zero =>
        have := similarity_search_combine_length_zero meta threshold vec []
        simpa using this
      | succ n =>
        have := similarity_search_combine_length_le meta (n + 1) threshold vec
          [] (by simp)
        omega
  · rw [similarity_search]
    by_cases he : vec.isEmpty
    · rw [if_pos he]; simp
    · rw [if_neg he]
      exact similarity_search_combine_length_le meta limit threshold vec [] hp
  · intro r hr
    rw [similarity_search] at hr
    by_cases he : vec.isEmpty
    · rw [if_pos he] at hr; simp at hr
    · rw [if_neg he] at hr
      exact similarity_search_combine_threshold meta limit threshold vec []
        (by simp) r hr

/-- Witness for C2 (amended) at a concrete request. -/
theorem similarity_search_limit_and_threshold_witness :
    (similarity_search [((1 : Int), (0 : ℚ))]
        [⟨1, "t", "rules_pdf", none, none⟩] 10 0).length ≤ 10 :=
  (similarity_search_limit_and_threshold [((1 : Int), (0 : ℚ))]
    [⟨1, "t", "rules_pdf", none, none⟩] 10 0).2.1 (by norm_num)

/-- C2 counterexample: with `limit = 0` the loop pushes one qualifying result
before checking the limit, so the result set exceeds the requested limit. -/
theorem similarity_search_limit_zero_counterexample :
    ¬ ((similarity_search [((1 : Int), (0 : ℚ))]
        [⟨1, "t", "rules_pdf", none, none⟩] 0 0).length ≤ 0) := by
  have h : (similarity_search [((1 : Int), (0 : ℚ))]
      [⟨1, "t", "rules_pdf", none, none⟩] 0 0).length = 1 := by
    simp [similarity_search, similarity_search_combine, List.find?]
  omega

theorem vecKeyOrder_resultOfMeta (a : EmbeddingSearchResult) (m : MetaRow)
    (rowid : Int) (distance : ℚ) (hid : m.id = rowid)
    (h : vecKeyOrder a (rowid, distance)) :
    scoreRowidOrder a (resultOfMeta m distance) := by
  rcases h with h | ⟨h1, h2⟩
  · exact Or.inl (by simpa [resultOfMeta] using h)
  · exact Or.inr ⟨by simpa [resultOfMeta] using h1, by simpa [resultOfMeta, hid] using h2⟩

theorem distRowidLt_vecKeyOrder (m : MetaRow) (rowid : Int) (distance : ℚ)
    (w : Int × ℚ) (hid : m.id = rowid)
    (h : distRowidLt (rowid, distance) w) :
    vecKeyOrder (resultOfMeta m distance) w := by
  rcases h with h | ⟨h1, h2⟩
  · exact Or.inl (by simpa [resultOfMeta] using sub_lt_sub_left h 1)
  · have h3 : distance = w.2 := h1
    have h4 : rowid < w.1 := h2
    exact Or.inr ⟨by simp [resultOfMeta, h3], by simpa [resultOfMeta, hid] using h4⟩

theorem similarity_search_combine_pairwise (meta : List MetaRow)
    (limit : Nat) (threshold : ℚ) (vec : List (Int × ℚ)) :
    ∀ results : List EmbeddingSearchResult,
      List.Pairwise distRowidLt vec →
      List.Pairwise scoreRowidOrder results →
      (∀ a ∈ results, ∀ v ∈ vec, vecKeyOrder a v) →
      List.Pairwise scoreRowidOrder
        (similarity_search_combine meta limit threshold vec results) := by
  induction vec with
  | nil =>
    intro results _ hr _
    simpa [similarity_search_combine] using hr
  | cons v rest ih =>
    intro results hvec hr hfut
    obtain ⟨rowid, distance⟩ := v
    have hvrest : List.Pairwise distRowidLt rest :=
      (List.pairwise_cons.mp hvec).2
    have hvhead : ∀ w ∈ rest, distRowidLt (rowid, distance) w :=
      (List.pairwise_cons.mp hvec).1
    cases hf : meta.find? (fun m => m.id == rowid) with
    | none =>
      simp only [similarity_search_combine, hf]
      exact ih results hvrest hr
        (fun a ha w hw => hfut a ha w (List.mem_cons_of_mem _ hw))
    | some m =>
      have hid : m.id = rowid := by
        have := List.find?_some hf
        simpa using this
      simp only [similarity_search_combine, hf]
      by_cases ht : threshold ≤ 1 - distance
      · rw [if_pos ht]
        have hp2 : List.Pairwise scoreRowidOrder
            (results ++ [resultOfMeta m distance]) := by
          rw [List.pairwise_append]
          refine ⟨hr, by simp, ?_⟩
          intro a ha b hb
          simp only [List.mem_singleton] at hb
          subst hb
          exact vecKeyOrder_resultOfMeta a m rowid distance hid
            (hfut a ha _ (List.mem_cons_self _ _))
        by_cases hl : limit ≤ (results ++ [resultOfMeta m distance]).length
        · rw [if_pos hl]
          exact hp2
        · rw [if_neg hl]
          refine ih _ hvrest hp2 ?_
          intro a ha w hw
          rcases List.mem_append.mp ha with ha | ha
          · exact hfut a ha w (List.mem_cons_of_mem _ hw)
          · simp only [List.mem_singleton] at ha
            subst ha
            exact distRowidLt_vecKeyOrder m rowid distance w hid (hvhead w hw)
      · rw [if_neg ht]
        exact ih results hvrest hr
          (fun a ha w hw => hfut a ha w (List.mem_cons_of_mem _ hw))

/-- C3 (amended): assuming the vector index returns its candidates sorted by
distance with equal-distance candidates in rowid order, the results are
sorted descending by similarity score and equal scores appear in ascending
rowid (insertion) order. -/
theorem similarity_search_sorted_desc (vec : List (Int × ℚ))
    (meta : List MetaRow) (limit : Nat) (threshold : ℚ)
    (h : List.Pairwise distRowidLt vec) :
    List.Pairwise scoreRowidOrder (similarity_search vec meta limit threshold) ∧
    List.Pairwise
      (fun a b : EmbeddingSearchResult =>
        b.similarity_score ≤ a.similarity_score)
      (similarity_search vec meta limit threshold) := by
  have h1 : List.Pairwise scoreRowidOrder
      (similarity_search vec meta limit threshold) := by
    rw [similarity_search]
    by_cases he : vec.isEmpty
    · rw [if_pos he]; simp
    · rw [if_neg he]
      exact similarity_search_combine_pairwise meta limit threshold vec [] h
        (by simp) (by simp)
  refine ⟨h1, h1.imp ?_⟩
  intro a b hab
  rcases hab with hab | ⟨hab, _⟩
  · exact le_of_lt hab
  · exact le_of_eq hab.symm

/-- Witness for C3 (amended) at a concrete request. -/
theorem similarity_search_sorted_desc_witness :
    List.Pairwise scoreRowidOrder
      (similarity_search [((1 : Int), (0 : ℚ)), (2, 1/2)]
        [⟨1, "a", "rules_pdf", none, none⟩] 10 0) ∧
    List.Pairwise
      (fun a b : EmbeddingSearchResult =>
        b.similarity_score ≤ a.similarity_score)
      (similarity_search [((1 : Int), (0 : ℚ)), (2, 1/2)]
        [⟨1, "a", "rules_pdf", none, none⟩] 10 0) :=
  similarity_search_sorted_desc [((1 : Int), (0 : ℚ)), (2, 1/2)]
    [⟨1, "a", "rules_pdf", none, none⟩] 10 0
    (by norm_num [List.pairwise_cons, distRowidLt])

/-- C3 counterexample: with candidates merely sorted by non-decreasing
distance, two equal-distance candidates arriving as rowid 2 before rowid 1
produce equal-score results out of rowid order. -/
theorem similarity_search_tie_order_counterexample :
    List.Pairwise (fun p q : Int × ℚ => p.2 ≤ q.2)
      [((2 : Int), (0 : ℚ)), (1, 0)] ∧
    ¬ List.Pairwise
        (fun a b : EmbeddingSearchResult =>
          a.similarity_score = b.similarity_score → a.id < b.id)
        (similarity_search [((2 : Int), (0 : ℚ)), (1, 0)]
          [⟨1, "a", "rules_pdf", none, none⟩,
           ⟨2, "b", "rules_pdf", none, none⟩] 10 0) := by
  constructor
  · norm_num [List.pairwise_cons]
  · have hs : similarity_search [((2 : Int), (0 : ℚ)), (1, 0)]
        [⟨1, "a", "rules_pdf", none, none⟩,
         ⟨2, "b", "rules_pdf", none, none⟩] 10 0 =
        [⟨2, "b", 1 - 0, .RulesPdf, none, none⟩,
         ⟨1, "a", 1 - 0, .RulesPdf, none, none⟩] := by
      have e1 : ((1 : Int) == (2 : Int)) = false := by decide
      have e2 : ((2 : Int) == (2 : Int)) = true := by decide
      have e3 : ((1 : Int) == (1 : Int)) = true := by decide
      norm_num [similarity_search, similarity_search_combine, List.find?,
        resultOfMeta, EmbeddingSourceType.from_str, e1, e2, e3]
    rw [hs]
    intro hp
    have h2 := (List.pairwise_cons.mp hp).1
      (⟨1, "a", 1 - 0, .RulesPdf, none, none⟩ : EmbeddingSearchResult)
      (by simp)
    exact absurd (h2 rfl) (by norm_num)

/-! ## Embedding client: C7 -/

theorem sortByIndex_perm (data : List EmbeddingDatum) :
    (sortByIndex data).Perm data :=
  List.perm_insertionSort indexLe data

theorem sortByIndex_sorted (data : List EmbeddingDatum) :
    List.Sorted indexLe (sortByIndex data) :=
  List.sorted_insertionSort indexLe data

theorem sortByIndex_indices_range (data : List EmbeddingDatum) (n : Nat)
    (h : (data.map (fun d => d.index)).Perm (List.range n)) :
    (sortByIndex data).map (fun d => d.index) = List.range n := by
  have hperm : ((sortByIndex data).map (fun d => d.index)).Perm
      (List.range n) := (List.Perm.map _ (sortByIndex_perm data)).trans h
  have hsorted : List.Sorted (· ≤ ·)
      ((sortByIndex data).map (fun d => d.index)) :=
    List.Pairwise.map _ (fun _ _ hab => hab) (sortByIndex_sorted data)
  exact List.eq_of_perm_of_sorted hperm hsorted (List.sorted_le_range n)

theorem generate_embeddings_of_ok (texts : List String)
    (service : List String → Except EmbedError (List EmbeddingDatum))
    (data : List EmbeddingDatum) (hne : texts ≠ [])
    (hs : service texts = .ok data) :
    generate_embeddings texts service =
      if data.length ≠ texts.length then
        .error (.countMismatch texts.length data.length)
      else .ok ((sortByIndex data).map (fun d => d.embedding)) := by
  rw [generate_embeddings, if_neg (by simp [hne]), hs]

/-- C7: `generate_embeddings` returns `ok []` for the empty batch no matter
what the service would answer (the service is not contacted); a response
whose item count differs from the input count is a hard
`countMismatch` error; and a successful call returns exactly one vector per
input, the response items reordered by their index tag (so when the tags are
a permutation of `0..n-1`, the output is in input order). -/
theorem generate_embeddings_spec (texts : List String)
    (service : List String → Except EmbedError (List EmbeddingDatum)) :
    (texts = [] → generate_embeddings texts service = .ok []) ∧
    (∀ data, texts ≠ [] → service texts = .ok data →
      data.length ≠ texts.length →
      generate_embeddings texts service =
        .error (.countMismatch texts.length data.length)) ∧
    (∀ data result, texts ≠ [] → service texts = .ok data →
      generate_embeddings texts service = .ok result →
      result = (sortByIndex data).map (fun d => d.embedding) ∧
      result.length = texts.length ∧
      ((data.map (fun d => d.index)).Perm (List.range texts.length) →
        (sortByIndex data).map (fun d => d.index) =
          List.range texts.length)) := by
  refine ⟨fun he => ?_, fun data hne hs hmis => ?_, fun data result hne hs hok => ?_⟩
  · subst he
    simp [generate_embeddings]
  · rw [generate_embeddings_of_ok texts service data hne hs, if_pos hmis]
  · rw [generate_embeddings_of_ok texts service data hne hs] at hok
    by_cases hmis : data.length ≠ texts.length
    · rw [if_pos hmis] at hok
      exact absurd hok (by simp)
    · rw [if_neg hmis] at hok
      push_neg at hmis
      have hres : result = (sortByIndex data).map (fun d => d.embedding) := by
        injection hok with h
        exact h.symm
      refine ⟨hres, ?_, fun hperm => sortByIndex_indices_range data _ hperm⟩
      rw [hres, List.length_map, (sortByIndex_perm data).length_eq, hmis]

/-- Witness for C7: empty batch with an always-failing service, a count
mismatch, and a successful out-of-order response restored to input order. -/
theorem generate_embeddings_spec_witness :
    generate_embeddings []
      (fun _ => .error (.serviceError "down")) = .ok [] ∧
    generate_embeddings ["a"] (fun _ => .ok []) =
      .error (.countMismatch 1 0) ∧
    generate_embeddings ["a", "b"]
      (fun _ => .ok [⟨1, [5]⟩, ⟨0, [7]⟩]) = .ok [[7], [5]] ∧
    (sortByIndex [⟨1, [5]⟩, ⟨0, [7]⟩]).map (fun d => d.index) =
      List.range 2 := by
  refine ⟨(generate_embeddings_spec [] _).1 rfl,
    (generate_embeddings_spec ["a"] _).2.1 [] (by simp) rfl (by simp),
    by rfl, ?_⟩
  exact ((generate_embeddings_spec ["a", "b"]
      (fun _ => .ok [⟨1, [5]⟩, ⟨0, [7]⟩])).2.2
    [⟨1, [5]⟩, ⟨0, [7]⟩] [[7], [5]] (by simp) rfl (by rfl)).2.2 (by decide)

/-! ## Vector store batch insert: C1 -/

theorem with_transaction_error {R : Type} (env : SqlEnv) (db : DbState)
    (f : DbState → Except SqliteError (DbState × R)) (e : SqliteError)
    (h : f db = .error e) : with_transaction env db f = (db, .error e) := by
  rw [with_transaction, h]

theorem with_transaction_ok {R : Type} (env : SqlEnv) (db : DbState)
    (f : DbState → Except SqliteError (DbState × R)) (db2 : DbState) (r : R)
    (h : f db = .ok (db2, r)) :
    with_transaction env db f =
      if env.commit_fails then (db, .error .commitFailure)
      else (db2, .ok r) := by
  rw [with_transaction, h]

theorem batch_rows_length (now : String) :
    ∀ (next : Int) (requests : List CreateEmbeddingRequest),
      (batch_rows now next requests).length = requests.length := by
  intro next requests
  induction requests generalizing next with
  | nil => simp [batch_rows]
  | cons req rest ih => simp [batch_rows, ih]

theorem create_embeddings_batch_go_ok (env : SqlEnv) (now : String) :
    ∀ (requests : List CreateEmbeddingRequest) (db : DbState)
      (ids : List Int) (db2 : DbState) (out : List Int),
      create_embeddings_batch_go env now requests db ids = .ok (db2, out) →
      db2.embeddings = db.embeddings ++ batch_rows now db.next_rowid requests ∧
      db2.vec_embeddings.length =
        db.vec_embeddings.length + requests.length ∧
      out.length = ids.length + requests.length := by
  intro requests
  induction requests with
  | nil =>
    intro db ids db2 out h
    rw [create_embeddings_batch_go] at h
    injection h with h
    obtain ⟨h1, h2⟩ := Prod.mk.injEq .. ▸ h
    subst h1
    subst h2
    simp [batch_rows]
  | cons req rest ih =>
    intro db ids db2 out h
    rw [create_embeddings_batch_go] at h
    by_cases hser : env.serialize_fails req.embedding
    · rw [if_pos hser] at h
      exact absurd h (by simp)
    · rw [if_neg hser] at h
      by_cases hins : env.insert_embedding_fails (requestRow now db.next_rowid req)
      · rw [if_pos hins] at h
        exact absurd h (by simp)
      · rw [if_neg hins] at h
        by_cases hvec : env.insert_vec_fails
            ⟨(requestRow now db.next_rowid req).id,
              serialize_embedding req.embedding⟩
        · rw [if_pos hvec] at h
          exact absurd h (by simp)
        · rw [if_neg hvec] at h
          obtain ⟨ih1, ih2, ih3⟩ := ih _ _ _ _ h
          refine ⟨?_, ?_, ?_⟩
          · rw [ih1]
            simp [batch_rows, requestRow]
          · rw [ih2]
            simp only [List.length_append, List.length_cons,
              List.length_nil]
            omega
          · rw [ih3]
            simp only [List.length_append, List.length_cons,
              List.length_nil]
            omega

/-- C1: `create_embeddings_batch` is all-or-nothing.  If serializing a
vector, inserting either row, or committing fails, the database is unchanged
(the transaction is rolled back); on success exactly one `embeddings` row and
one `vec_embeddings` row are appended per request and one id is returned per
request. -/
theorem create_embeddings_batch_atomic (env : SqlEnv) (now : String)
    (requests : List CreateEmbeddingRequest) (db : DbState) :
    (∀ e, (create_embeddings_batch env now requests db).2 = .error e →
      (create_embeddings_batch env now requests db).1 = db) ∧
    (∀ ids, (create_embeddings_batch env now requests db).2 = .ok ids →
      (create_embeddings_batch env now requests db).1.embeddings =
        db.embeddings ++ batch_rows now db.next_rowid requests ∧
      (batch_rows now db.next_rowid requests).length = requests.length ∧
      (create_embeddings_batch env now requests db).1.vec_embeddings.length =
        db.vec_embeddings.length + requests.length ∧
      ids.length = requests.length) := by
  cases hgo : create_embeddings_batch_go env now requests db [] with
  | error e2 =>
    have hrw : create_embeddings_batch env now requests db =
        (db, .error e2) := with_transaction_error env db _ e2 hgo
    rw [hrw]
    exact ⟨fun e _ => rfl, fun ids hids => absurd hids (by simp)⟩
  | ok p =>
    obtain ⟨db2, out⟩ := p
    have hrw : create_embeddings_batch env now requests db =
        if env.commit_fails then (db, .error .commitFailure)
        else (db2, .ok out) := with_transaction_ok env db _ db2 out hgo
    rw [hrw]
    by_cases hc : env.commit_fails
    · rw [if_pos hc]
      exact ⟨fun e _ => rfl, fun ids hids => absurd hids (by simp)⟩
    · rw [if_neg hc]
      refine ⟨fun e he => absurd he (by simp), fun ids hids => ?_⟩
      have hout : out = ids := by
        injection hids
      subst hout
      obtain ⟨h1, h2, h3⟩ := create_embeddings_batch_go_ok env now requests
        db [] db2 out hgo
      refine ⟨h1, batch_rows_length now db.next_rowid requests, h2, ?_⟩
      simpa using h3

/-- Witness for C1: a failure-free environment persists a one-request batch,
appending exactly the expected rows and returning one id. -/
theorem create_embeddings_batch_atomic_witness :
    (create_embeddings_batch
        ⟨fun _ => false, fun _ => false, fun _ => false, false⟩ "now"
        [⟨7, "chunk", [1], 0, .RulesPdf, none, none⟩]
        ⟨[], [], 1⟩).1.embeddings =
      [] ++ batch_rows "now" 1 [⟨7, "chunk", [1], 0, .RulesPdf, none, none⟩] ∧
    (batch_rows "now" 1
      [⟨7, "chunk", [1], 0, .RulesPdf, none, none⟩]).length = 1 ∧
    (create_embeddings_batch
        ⟨fun _ => false, fun _ => false, fun _ => false, false⟩ "now"
        [⟨7, "chunk", [1], 0, .RulesPdf, none, none⟩]
        ⟨[], [], 1⟩).1.vec_embeddings.length = 0 + 1 ∧
    ([(1 : Int)]).length = 1 :=
  (create_embeddings_batch_atomic
    ⟨fun _ => false, fun _ => false, fun _ => false, false⟩ "now"
    [⟨7, "chunk", [1], 0, .RulesPdf, none, none⟩] ⟨[], [], 1⟩).2 [1] rfl

/-! ## Deleting a game's PDF embeddings: C10 -/

/-- C10: `delete_rules` removes exactly the `embeddings` rows of the
requested game whose source type is `rules_pdf`; `house_rule` rows and rows
of other games survive, nothing new appears, and the reported
`embeddings_deleted` count is the number of rows removed. -/
theorem delete_rules_frame (games : List GameRow) (db : DbState)
    (gameId : Int) (games2 : List GameRow) (db2 : DbState) (n : Nat)
    (h : delete_rules games db gameId = some (games2, db2, n)) :
    db2.embeddings = db.embeddings.filter
      (fun r => !(r.game_id == gameId && r.source_type == "rules_pdf")) ∧
    n = (db.embeddings.filter
      (fun r => r.game_id == gameId && r.source_type == "rules_pdf")).length ∧
    (∀ r ∈ db.embeddings, r.source_type = "house_rule" → r ∈ db2.embeddings) ∧
    (∀ r ∈ db.embeddings, r.game_id ≠ gameId → r ∈ db2.embeddings) ∧
    (∀ r ∈ db2.embeddings, r ∈ db.embeddings) := by
  rw [delete_rules] at h
  cases hf : games.find? (fun g => g.id == gameId) with
  | none =>
    rw [hf] at h
    exact absurd h (by simp)
  | some g =>
    rw [hf] at h
    injection h with h
    obtain ⟨hg, hrest⟩ := Prod.mk.injEq .. ▸ h.symm
    obtain ⟨hdb, hn⟩ := Prod.mk.injEq .. ▸ hrest
    have hdb2 : db2.embeddings = db.embeddings.filter
        (fun r => !(r.game_id == gameId && r.source_type == "rules_pdf")) := by
      rw [hdb]
      rfl
    refine ⟨hdb2, by rw [hn]; rfl, ?_, ?_, ?_⟩
    · intro r hr hsrc
      rw [hdb2]
      rw [List.mem_filter]
      refine ⟨hr, ?_⟩
      have : (r.source_type == "rules_pdf") = false := by
        rw [hsrc]
        rfl
      simp [this]
    · intro r hr hgame
      rw [hdb2]
      rw [List.mem_filter]
      refine ⟨hr, ?_⟩
      have : (r.game_id == gameId) = false := beq_eq_false_iff_ne.mpr hgame
      simp [this]
    · intro r hr
      rw [hdb2] at hr
      exact (List.mem_filter.mp hr).1

/-- Witness for C10: one game with one matching row, one `house_rule` row and
one row of another game; only the matching row disappears and the count
is 1. -/
theorem delete_rules_frame_witness :
    (⟨[⟨2, 5, "b", 0, "house_rule", some 9, none, "t"⟩,
       ⟨3, 6, "c", 0, "rules_pdf", none, none, "t"⟩], [], 4⟩ :
      DbState).embeddings =
      List.filter (fun r => !(r.game_id == 5 && r.source_type == "rules_pdf"))
        [⟨1, 5, "a", 0, "rules_pdf", none, none, "t"⟩,
         ⟨2, 5, "b", 0, "house_rule", some 9, none, "t"⟩,
         ⟨3, 6, "c", 0, "rules_pdf", none, none, "t"⟩] ∧
    1 = (List.filter
        (fun r => r.game_id == 5 && r.source_type == "rules_pdf")
        [(⟨1, 5, "a", 0, "rules_pdf", none, none, "t"⟩ : EmbRow),
         ⟨2, 5, "b", 0, "house_rule", some 9, none, "t"⟩,
         ⟨3, 6, "c", 0, "rules_pdf", none, none, "t"⟩]).length := by
  have h := delete_rules_frame [⟨5, some "f.pdf"⟩]
    ⟨[⟨1, 5, "a", 0, "rules_pdf", none, none, "t"⟩,
      ⟨2, 5, "b", 0, "house_rule", some 9, none, "t"⟩,
      ⟨3, 6, "c", 0, "rules_pdf", none, none, "t"⟩], [], 4⟩ 5
    [⟨5, none⟩]
    ⟨[⟨2, 5, "b", 0, "house_rule", some 9, none, "t"⟩,
      ⟨3, 6, "c", 0, "rules_pdf", none, none, "t"⟩], [], 4⟩ 1 rfl
  exact ⟨h.1, h.2.1⟩

/-! ## Trimming infrastructure -/

theorem head?_dropWhile_not (p : Char → Bool) (l : List Char) :
    ∀ c, (l.dropWhile p).head? = some c → p c = false := by
  induction l with
  | nil => intro c h; simp at h
  | cons x xs ih =>
    intro c h
    by_cases hp : p x
    · rw [List.dropWhile_cons_of_pos hp] at h
      exact ih c h
    · rw [List.dropWhile_cons_of_neg hp] at h
      simp only [List.head?_cons, Option.some.injEq] at h
      subst h
      exact Bool.eq_false_iff.mpr hp

theorem dropWhile_eq_self_of_head (p : Char → Bool) (l : List Char)
    (h : ∀ c, l.head? = some c → p c = false) : l.dropWhile p = l := by
  cases l with
  | nil => rfl
  | cons x xs =>
    rw [List.dropWhile_cons_of_neg]
    simp [h x rfl]

theorem dropWhile_suffix (p : Char → Bool) (l : List Char) :
    l.dropWhile p <:+ l :=
  ⟨l.takeWhile p, List.takeWhile_append_dropWhile ..⟩

theorem myTrim_eq_self (l : List Char) (h1 : NoWsHead l) (h2 : NoWsLast l) :
    myTrim l = l := by
  rw [myTrim, trimLeft, dropWhile_eq_self_of_head _ _ h1,
    dropWhile_eq_self_of_head, List.reverse_reverse]
  intro c hc
  rw [List.head?_reverse] at hc
  exact h2 c hc

theorem NoWsHead_myTrim (l : List Char) : NoWsHead (myTrim l) := by
  intro c hc
  rw [myTrim, List.head?_reverse] at hc
  obtain ⟨t, ht⟩ := dropWhile_suffix isWs (trimLeft l).reverse
  cases hx : (trimLeft l).reverse.dropWhile isWs with
  | nil => rw [hx] at hc; simp at hc
  | cons y ys =>
    rw [hx] at hc
    have hlast : ((trimLeft l).reverse).getLast? = some c := by
      rw [← ht, hx, List.getLast?_append_of_ne_nil t (by simp)]
      exact hc
    rw [List.getLast?_reverse] at hlast
    exact head?_dropWhile_not isWs l c hlast

theorem NoWsLast_myTrim (l : List Char) : NoWsLast (myTrim l) := by
  intro c hc
  rw [myTrim, List.getLast?_reverse] at hc
  exact head?_dropWhile_not isWs _ c hc

theorem myTrim_idem (l : List Char) : myTrim (myTrim l) = myTrim l :=
  myTrim_eq_self _ (NoWsHead_myTrim l) (NoWsLast_myTrim l)

theorem mem_myTrim (l : List Char) (c : Char) (h : c ∈ myTrim l) : c ∈ l := by
  rw [myTrim, List.mem_reverse] at h
  have h3 := (dropWhile_suffix isWs _).subset h
  rw [List.mem_reverse] at h3
  exact (dropWhile_suffix isWs l).subset h3

theorem myTrim_length_le (l : List Char) : (myTrim l).length ≤ l.length := by
  rw [myTrim]
  calc ((trimLeft l).reverse.dropWhile isWs).reverse.length
      = ((trimLeft l).reverse.dropWhile isWs).length := List.length_reverse _
    _ ≤ (trimLeft l).reverse.length := (dropWhile_suffix isWs _).length_le
    _ = (trimLeft l).length := List.length_reverse _
    _ ≤ l.length := (dropWhile_suffix isWs l).length_le

theorem allWs_of_myTrim_nil (l : List Char) (h : myTrim l = []) :
    ∀ c ∈ l, isWs c = true := by
  rw [myTrim, List.reverse_eq_nil_iff, List.dropWhile_eq_nil_iff] at h
  intro c hc
  have hsplit := List.takeWhile_append_dropWhile (p := isWs) (l := l)
  rw [← hsplit] at hc
  rcases List.mem_append.mp hc with hc | hc
  · exact List.mem_takeWhile_imp hc
  · exact h c (List.mem_reverse.mpr hc)

theorem myTrim_nil_of_allWs (l : List Char) (h : ∀ c ∈ l, isWs c = true) :
    myTrim l = [] := by
  have h2 : l.dropWhile isWs = [] := List.dropWhile_eq_nil_iff.mpr h
  rw [myTrim, trimLeft, h2]
  rfl

theorem NoWsHead_append (a x : List Char) (ha : a ≠ []) (h : NoWsHead a) :
    NoWsHead (a ++ x) := by
  intro c hc
  rw [List.head?_append_of_ne_nil a ha] at hc
  exact h c hc

theorem NoWsLast_append (x b : List Char) (hb : b ≠ []) (h : NoWsLast b) :
    NoWsLast (x ++ b) := by
  intro c hc
  rw [List.getLast?_append_of_ne_nil x hb] at hc
  exact h c hc

theorem SentenceOk_myTrim (s : List Char) (h : myTrim s ≠ []) :
    SentenceOk (myTrim s) :=
  ⟨h, NoWsHead_myTrim s, NoWsLast_myTrim s⟩

/-! ## Sentence overlap: C6 -/

theorem joinSp_cons (s : List Char) (rest : List (List Char)) (h : rest ≠ []) :
    joinSp (s :: rest) = s ++ ' ' :: joinSp rest := by
  cases rest with
  | nil => exact absurd rfl h
  | cons t ts => rfl

theorem joinSp_blob (xs : List (List Char)) (a b : List Char) :
    joinSp (xs ++ [a ++ ' ' :: b]) = joinSp (xs ++ [a, b]) := by
  induction xs with
  | nil => rfl
  | cons x xs ih =>
    rw [List.cons_append, List.cons_append, joinSp_cons _ _ (by simp),
      joinSp_cons _ _ (by simp), ih]

theorem joinSp_ne_nil (l : List (List Char)) (hl : l ≠ [])
    (h : ∀ s ∈ l, s ≠ []) : joinSp l ≠ [] := by
  cases l with
  | nil => exact absurd rfl hl
  | cons s rest =>
    cases rest with
    | nil => exact h s (by simp)
    | cons t ts =>
      rw [joinSp_cons _ _ (by simp)]
      simp

theorem overlap_go_join (l : List (List Char)) :
    ∀ (overlap : List Char) (cl : Nat), (∀ s ∈ l, s ≠ []) →
      ∃ pre, pre <+: l ∧
        overlap_go l overlap cl = joinSp (pre.reverse ++ ovList overlap) := by
  induction l with
  | nil =>
    intro overlap cl _
    refine ⟨[], List.nil_prefix, ?_⟩
    rw [overlap_go, ovList]
    by_cases h : overlap = []
    · subst h; rw [if_pos rfl]; rfl
    · rw [if_neg h]; rfl
  | cons s rest ih =>
    intro overlap cl hne
    rw [overlap_go]
    by_cases hfit : cl + s.length ≤ CHUNK_OVERLAP
    · rw [if_pos hfit]
      have hs : s ≠ [] := hne s (List.mem_cons_self ..)
      obtain ⟨pre, hpre, heq⟩ := ih (if overlap = [] then s else s ++ ' ' :: overlap)
        (cl + s.length + 1) (fun t ht => hne t (List.mem_cons_of_mem _ ht))
      refine ⟨s :: pre, ?_, ?_⟩
      · exact List.cons_prefix_cons.mpr ⟨rfl, hpre⟩
      · rw [heq]
        by_cases ho : overlap = []
        · subst ho
          rw [if_pos rfl, ovList, if_neg hs, ovList, if_pos rfl,
            List.reverse_cons, List.append_nil]
        · rw [if_neg ho, ovList, if_neg (by simp), List.reverse_cons,
            ovList, if_neg ho]
          rw [List.append_assoc]
          exact joinSp_blob pre.reverse s overlap
    · rw [if_neg hfit]
      refine ⟨[], List.nil_prefix, ?_⟩
      rw [ovList]
      by_cases h : overlap = []
      · subst h; rw [if_pos rfl]; rfl
      · rw [if_neg h]; rfl

theorem overlap_go_length_le (l : List (List Char)) :
    ∀ (overlap : List Char) (cl : Nat),
      (overlap.length < cl ∨ (overlap = [] ∧ cl = 0)) →
      cl ≤ CHUNK_OVERLAP + 1 →
      (overlap_go l overlap cl).length ≤ CHUNK_OVERLAP := by
  induction l with
  | nil =>
    intro overlap cl h hcl
    rw [overlap_go]
    rcases h with h | ⟨h1, _⟩
    · rw [CHUNK_OVERLAP] at hcl ⊢
      omega
    · subst h1
      simp [CHUNK_OVERLAP]
  | cons s rest ih =>
    intro overlap cl h hcl
    rw [overlap_go]
    by_cases hfit : cl + s.length ≤ CHUNK_OVERLAP
    · rw [if_pos hfit]
      refine ih _ _ ?_ (by omega)
      by_cases ho : overlap = []
      · subst ho
        rw [if_pos rfl]
        left
        omega
      · rw [if_neg ho]
        left
        have hlen : (s ++ ' ' :: overlap).length = s.length + overlap.length + 1 := by
          simp
          omega
        rcases h with h | ⟨h1, _⟩
        · omega
        · exact absurd h1 ho
    · rw [if_neg hfit]
      rcases h with h | ⟨h1, _⟩
      · rw [CHUNK_OVERLAP] at hcl ⊢
        omega
      · subst h1
        simp [CHUNK_OVERLAP]

theorem create_sentence_overlap_suffix (buffer : List (List Char))
    (hne : ∀ s ∈ buffer, s ≠ []) :
    ∃ suffix, suffix <:+ buffer ∧
      create_sentence_overlap buffer = joinSp suffix ∧
      (joinSp suffix).length ≤ CHUNK_OVERLAP := by
  rw [create_sentence_overlap]
  by_cases hb : buffer = []
  · subst hb
    rw [if_pos rfl]
    refine ⟨[], List.suffix_rfl, rfl, ?_⟩
    show (joinSp []).length ≤ CHUNK_OVERLAP
    rw [CHUNK_OVERLAP]
    simp [joinSp]
  · rw [if_neg hb]
    obtain ⟨pre, hpre, heq⟩ := overlap_go_join buffer.reverse [] 0
      (fun s hs => hne s (List.mem_reverse.mp hs))
    have hlen := overlap_go_length_le buffer.reverse [] 0
      (Or.inr ⟨rfl, rfl⟩) (by omega)
    have hov : ovList ([] : List Char) = [] := by rw [ovList, if_pos rfl]
    rw [heq, hov, List.append_nil] at hlen ⊢
    refine ⟨pre.reverse, ?_, rfl, hlen⟩
    exact List.reverse_prefix.mp (by rwa [List.reverse_reverse])

theorem joinSp_trimmed (l : List (List Char)) (h : ∀ s ∈ l, SentenceOk s) :
    joinSp l = [] ∨ (NoWsHead (joinSp l) ∧ NoWsLast (joinSp l)) := by
  induction l with
  | nil => exact Or.inl rfl
  | cons s rest ih =>
    right
    obtain ⟨hs1, hs2, hs3⟩ := h s (List.mem_cons_self ..)
    cases rest with
    | nil => exact ⟨hs2, hs3⟩
    | cons t ts =>
      rw [joinSp_cons s _ (by simp)]
      have hxne : joinSp (t :: ts) ≠ [] :=
        joinSp_ne_nil _ (by simp) (fun u hu => (h u (List.mem_cons_of_mem _ hu)).1)
      rcases ih (fun u hu => h u (List.mem_cons_of_mem _ hu)) with hnil | ⟨hh, hl⟩
      · exact absurd hnil hxne
      · constructor
        · exact NoWsHead_append s _ hs1 hs2
        · have hsplit : s ++ ' ' :: joinSp (t :: ts) =
              (s ++ [' ']) ++ joinSp (t :: ts) := by simp
          rw [hsplit]
          exact NoWsLast_append _ _ hxne hl

theorem create_sentence_overlap_trimmed (buffer : List (List Char))
    (h : ∀ s ∈ buffer, SentenceOk s) :
    create_sentence_overlap buffer = [] ∨
      (NoWsHead (create_sentence_overlap buffer) ∧
       NoWsLast (create_sentence_overlap buffer)) := by
  obtain ⟨suffix, hsuf, heq, _⟩ :=
    create_sentence_overlap_suffix buffer (fun s hs => (h s hs).1)
  rw [heq]
  exact joinSp_trimmed suffix (fun s hs => h s (hsuf.subset hs))

/-- C6: both chunk-closing sites seed the next chunk with
`create_sentence_overlap` of the just-closed chunk's sentence buffer, and
for every buffer of non-empty sentences that overlap is a contiguous suffix
of the buffer joined in original order with single spaces, of combined
length at most the 300-character overlap budget. -/
theorem chunk_overlap_spec :
    (∀ st : ChunkState,
      (close_chunk st).current_chunk =
        create_sentence_overlap st.sentence_buffer ∧
      (close_chunk st).chunks = st.chunks ++ [myTrim st.current_chunk] ∧
      (close_chunk st).sentence_buffer = []) ∧
    (∀ buffer : List (List Char), (∀ s ∈ buffer, s ≠ []) →
      ∃ suffix, suffix <:+ buffer ∧
        create_sentence_overlap buffer = joinSp suffix ∧
        (joinSp suffix).length ≤ CHUNK_OVERLAP) :=
  ⟨fun _ => ⟨rfl, rfl, rfl⟩, create_sentence_overlap_suffix⟩

/-- Witness for C6 at a concrete two-sentence buffer. -/
theorem chunk_overlap_spec_witness :
    ∃ suffix, suffix <:+ ["The first player begins.".toList,
        "The player with most points wins.".toList] ∧
      create_sentence_overlap ["The first player begins.".toList,
        "The player with most points wins.".toList] = joinSp suffix ∧
      (joinSp suffix).length ≤ CHUNK_OVERLAP :=
  chunk_overlap_spec.2 ["The first player begins.".toList,
    "The player with most points wins.".toList] (by decide)

/-! ## Chunk-size bounds: C4 -/

theorem close_chunk_chunks (st : ChunkState) :
    (close_chunk st).chunks = st.chunks ++ [myTrim st.current_chunk] := rfl

theorem close_chunk_current (st : ChunkState) :
    (close_chunk st).current_chunk =
      create_sentence_overlap st.sentence_buffer := rfl

theorem close_chunk_buffer (st : ChunkState) :
    (close_chunk st).sentence_buffer = [] := rfl

theorem appendSentence_length (cur s : List Char) :
    (appendSentence cur s).length =
      (if cur = [] then 0 else cur.length + 1) + s.length := by
  rw [appendSentence]
  by_cases h : cur = []
  · rw [if_pos h, if_pos h]
    simp
  · rw [if_neg h, if_neg h]
    simp
    omega

theorem appendSentence_trimmed (cur s : List Char)
    (hcur : cur = [] ∨ (NoWsHead cur ∧ NoWsLast cur)) (hs : SentenceOk s) :
    NoWsHead (appendSentence cur s) ∧ NoWsLast (appendSentence cur s) := by
  obtain ⟨hs1, hs2, hs3⟩ := hs
  rw [appendSentence]
  by_cases h : cur = []
  · rw [if_pos h]
    exact ⟨hs2, hs3⟩
  · rw [if_neg h]
    rcases hcur with hc | ⟨hch, hcl⟩
    · exact absurd hc h
    constructor
    · exact NoWsHead_append cur _ h hch
    · have hsplit : cur ++ ' ' :: s = (cur ++ [' ']) ++ s := by simp
      rw [hsplit]
      exact NoWsLast_append _ s hs1 hs3

theorem close_chunk_inv (st : ChunkState) (hinv : ChunkInv st)
    (hmin : MIN_CHUNK_SIZE ≤ st.current_chunk.length) :
    ChunkInv (close_chunk st) ∧
    (close_chunk st).current_chunk.length ≤ CHUNK_OVERLAP := by
  obtain ⟨hchunks, hcur_le, hcur_tr, hbuf⟩ := hinv
  have htr : myTrim st.current_chunk = st.current_chunk := by
    rcases hcur_tr with h | ⟨h1, h2⟩
    · rw [h]
      rfl
    · exact myTrim_eq_self _ h1 h2
  obtain ⟨suffix, hsuf, heq, hle⟩ := create_sentence_overlap_suffix
    st.sentence_buffer (fun s hs => (hbuf s hs).1)
  have hcur300 : (close_chunk st).current_chunk.length ≤ CHUNK_OVERLAP := by
    rw [close_chunk_current, heq]
    exact hle
  refine ⟨⟨?_, ?_, ?_, by rw [close_chunk_buffer]; simp⟩, hcur300⟩
  · intro c hc
    rw [close_chunk_chunks] at hc
    rcases List.mem_append.mp hc with hc | hc
    · exact hchunks c hc
    · simp only [List.mem_singleton] at hc
      subst hc
      rw [htr]
      exact ⟨hmin, hcur_le⟩
  · refine le_trans hcur300 ?_
    rw [CHUNK_OVERLAP, MAX_CHUNK_SIZE]
    omega
  · rw [close_chunk_current]
    exact create_sentence_overlap_trimmed st.sentence_buffer hbuf

theorem chunk_step_eq (st : ChunkState) (s0 : List Char) :
    chunk_step st s0 =
      if myTrim s0 = [] then st
      else
        (fun st1 =>
          if CHUNK_SIZE ≤ (appendSentence st1.current_chunk (myTrim s0)).length ∧
              is_good_chunk_boundary (myTrim s0) = true
          then close_chunk ⟨st1.chunks,
            appendSentence st1.current_chunk (myTrim s0),
            st1.sentence_buffer ++ [myTrim s0]⟩
          else ⟨st1.chunks, appendSentence st1.current_chunk (myTrim s0),
            st1.sentence_buffer ++ [myTrim s0]⟩)
        (if st.current_chunk ≠ [] ∧
            MAX_CHUNK_SIZE < st.current_chunk.length + (myTrim s0).length + 1 ∧
            MIN_CHUNK_SIZE ≤ st.current_chunk.length
          then close_chunk st else st) := rfl

theorem chunk_step23_inv (st1 : ChunkState) (sentence : List Char)
    (hinv1 : ChunkInv st1) (hsok : SentenceOk sentence)
    (happ : (appendSentence st1.current_chunk sentence).length ≤
      MAX_CHUNK_SIZE) :
    ChunkInv (if CHUNK_SIZE ≤ (appendSentence st1.current_chunk sentence).length ∧
        is_good_chunk_boundary sentence = true
      then close_chunk ⟨st1.chunks, appendSentence st1.current_chunk sentence,
        st1.sentence_buffer ++ [sentence]⟩
      else ⟨st1.chunks, appendSentence st1.current_chunk sentence,
        st1.sentence_buffer ++ [sentence]⟩) := by
  obtain ⟨hchunks, hcur_le, hcur_tr, hbuf⟩ := hinv1
  have hst2 : ChunkInv ⟨st1.chunks, appendSentence st1.current_chunk sentence,
      st1.sentence_buffer ++ [sentence]⟩ := by
    refine ⟨hchunks, happ, ?_, ?_⟩
    · exact Or.inr (appendSentence_trimmed _ _ hcur_tr hsok)
    · intro s hs
      rcases List.mem_append.mp hs with hs | hs
      · exact hbuf s hs
      · simp only [List.mem_singleton] at hs
        subst hs
        exact hsok
  by_cases h2 : CHUNK_SIZE ≤ (appendSentence st1.current_chunk sentence).length ∧
      is_good_chunk_boundary sentence = true
  · rw [if_pos h2]
    refine (close_chunk_inv _ hst2 ?_).1
    show MIN_CHUNK_SIZE ≤ (appendSentence st1.current_chunk sentence).length
    have := h2.1
    rw [CHUNK_SIZE] at this
    rw [MIN_CHUNK_SIZE]
    omega
  · rw [if_neg h2]
    exact hst2

theorem chunk_step_inv (st : ChunkState) (s0 : List Char)
    (hlen : (myTrim s0).length + CHUNK_OVERLAP + 1 ≤ MAX_CHUNK_SIZE)
    (hinv : ChunkInv st) : ChunkInv (chunk_step st s0) := by
  rw [chunk_step_eq]
  by_cases hse : myTrim s0 = []
  · rw [if_pos hse]
    exact hinv
  · rw [if_neg hse]
    have hsok : SentenceOk (myTrim s0) := SentenceOk_myTrim s0 hse
    have hslen : (myTrim s0).length ≤ 1199 := by
      rw [CHUNK_OVERLAP, MAX_CHUNK_SIZE] at hlen
      omega
    by_cases h1 : st.current_chunk ≠ [] ∧
        MAX_CHUNK_SIZE < st.current_chunk.length + (myTrim s0).length + 1 ∧
        MIN_CHUNK_SIZE ≤ st.current_chunk.length
    · rw [if_pos h1]
      obtain ⟨hinv1, h300⟩ := close_chunk_inv st hinv h1.2.2
      refine chunk_step23_inv _ _ hinv1 hsok ?_
      rw [appendSentence_length]
      rw [CHUNK_OVERLAP] at h300
      by_cases hc : (close_chunk st).current_chunk = []
      · rw [if_pos hc, MAX_CHUNK_SIZE]
        omega
      · rw [if_neg hc, MAX_CHUNK_SIZE]
        omega
    · rw [if_neg h1]
      refine chunk_step23_inv st _ hinv hsok ?_
      rw [appendSentence_length]
      by_cases hc : st.current_chunk = []
      · rw [if_pos hc, MAX_CHUNK_SIZE]
        omega
      · rw [if_neg hc]
        push_neg at h1
        have h3 := h1 hc
        by_cases hb : MAX_CHUNK_SIZE < st.current_chunk.length + (myTrim s0).length + 1
        · have h4 := h3 hb
          rw [MIN_CHUNK_SIZE] at h4
          rw [MAX_CHUNK_SIZE]
          omega
        · rw [MAX_CHUNK_SIZE] at hb ⊢
          omega

theorem foldl_chunk_step_inv (sentences : List (List Char))
    (hs : ∀ s ∈ sentences,
      (myTrim s).length + CHUNK_OVERLAP + 1 ≤ MAX_CHUNK_SIZE) :
    ∀ st, ChunkInv st → ChunkInv (sentences.foldl chunk_step st) := by
  induction sentences with
  | nil =>
    intro st h
    exact h
  | cons s rest ih =>
    intro st h
    rw [List.foldl_cons]
    exact ih (fun t ht => hs t (List.mem_cons_of_mem _ ht)) _
      (chunk_step_inv st s (hs s (List.mem_cons_self ..)) h)

/-- C4 (amended): provided every sentence produced for the text fits in the
chunk budget (length at most `MAX_CHUNK_SIZE - CHUNK_OVERLAP - 1 = 1199`),
every chunk emitted by `chunk_text` — including the final one — has between
`MIN_CHUNK_SIZE = 100` and `MAX_CHUNK_SIZE = 1500` characters. -/
theorem chunk_text_bounds (text : List Char)
    (hs : ∀ s ∈ split_into_sentences (clean_text text),
      s.length + CHUNK_OVERLAP + 1 ≤ MAX_CHUNK_SIZE) :
    ∀ c ∈ chunk_text text,
      MIN_CHUNK_SIZE ≤ c.length ∧ c.length ≤ MAX_CHUNK_SIZE := by
  intro c hc
  rw [chunk_text] at hc
  by_cases h0 : myTrim text = []
  · rw [if_pos h0] at hc
    simp at hc
  · rw [if_neg h0] at hc
    by_cases h1 : split_into_sentences (clean_text text) = []
    · rw [if_pos h1] at hc
      simp at hc
    · rw [if_neg h1] at hc
      have hinv0 : ChunkInv ⟨[], [], []⟩ := by
        refine ⟨by simp, by simp, Or.inl rfl, by simp⟩
      have hinv := foldl_chunk_step_inv (split_into_sentences (clean_text text))
        (fun s hsm => by
          have h2 := hs s hsm
          have h3 := myTrim_length_le s
          omega)
        ⟨[], [], []⟩ hinv0
      obtain ⟨hchunks, hcur_le, _, _⟩ := hinv
      rw [chunk_finalize] at hc
      by_cases h2 : MIN_CHUNK_SIZE ≤
          (myTrim ((split_into_sentences (clean_text text)).foldl chunk_step
            ⟨[], [], []⟩).current_chunk).length
      · rw [if_pos h2] at hc
        rcases List.mem_append.mp hc with hc | hc
        · exact hchunks c hc
        · simp only [List.mem_singleton] at hc
          subst hc
          exact ⟨h2, le_trans (myTrim_length_le _) hcur_le⟩
      · rw [if_neg h2] at hc
        exact hchunks c hc

/-- Witness for C4 (amended) at a concrete three-sentence text. -/
theorem chunk_text_bounds_witness :
    MIN_CHUNK_SIZE ≤
      ((chunk_text ("This is the first sentence of the game rules. " ++
          "This is the second sentence of the rules. " ++
          "Final words complete the game rules text here.").toList).getD 0
        []).length ∧
    ((chunk_text ("This is the first sentence of the game rules. " ++
        "This is the second sentence of the rules. " ++
        "Final words complete the game rules text here.").toList).getD 0
      []).length ≤ MAX_CHUNK_SIZE :=
  chunk_text_bounds ("This is the first sentence of the game rules. " ++
      "This is the second sentence of the rules. " ++
      "Final words complete the game rules text here.").toList
    (by decide) _ (by decide)

/-! ## Sentence splitting without boundaries -/

theorem split_go_step_nonpunct (chars : List Char) (fuel i : Nat)
    (current : List Char) (sentences : List (List Char))
    (hi : i < chars.length)
    (hch : ((chars.get ⟨i, hi⟩ == '.') || (chars.get ⟨i, hi⟩ == '!') ||
      (chars.get ⟨i, hi⟩ == '?')) = false) :
    split_go chars (fuel + 1) i current sentences =
      split_go chars fuel (i + 1) (chars.get ⟨i, hi⟩ :: current) sentences := by
  rw [split_go, dif_pos hi]
  simp only [hch, Bool.false_and, Bool.false_eq_true, if_false]

theorem split_go_finish (chars : List Char) (fuel i : Nat)
    (current : List Char) (sentences : List (List Char))
    (hi : chars.length ≤ i) :
    split_go chars fuel i current sentences =
      if myTrim current.reverse ≠ [] ∧ 10 < (myTrim current.reverse).length
      then sentences ++ [myTrim current.reverse] else sentences := by
  cases fuel with
  | zero => rw [split_go]
  | succ f => rw [split_go, dif_neg (by omega)]

theorem split_go_step_punct (chars : List Char) (fuel i : Nat)
    (current : List Char) (sentences : List (List Char))
    (hi : i < chars.length)
    (hch : ((chars.get ⟨i, hi⟩ == '.') || (chars.get ⟨i, hi⟩ == '!') ||
      (chars.get ⟨i, hi⟩ == '?')) = true)
    (hend : is_sentence_end chars i = true) :
    split_go chars (fuel + 1) i current sentences =
      if myTrim (swallowTrailing chars (i + 1)
            (chars.get ⟨i, hi⟩ :: current)).1.reverse ≠ [] ∧
          10 < (myTrim (swallowTrailing chars (i + 1)
            (chars.get ⟨i, hi⟩ :: current)).1.reverse).length
      then split_go chars fuel
          (i + 1 + (swallowTrailing chars (i + 1)
            (chars.get ⟨i, hi⟩ :: current)).2) []
          (sentences ++ [myTrim (swallowTrailing chars (i + 1)
            (chars.get ⟨i, hi⟩ :: current)).1.reverse])
      else split_go chars fuel
          (i + 1 + (swallowTrailing chars (i + 1)
            (chars.get ⟨i, hi⟩ :: current)).2) [] sentences := by
  rw [split_go, dif_pos hi]
  simp only [hch, hend, Bool.and_self, if_true]

theorem split_go_run (chars : List Char) :
    ∀ (k i fuel : Nat) (current : List Char) (sentences : List (List Char)),
      (∀ m, i ≤ m → m < i + k → ∀ hm : m < chars.length,
        ((chars.get ⟨m, hm⟩ == '.') || (chars.get ⟨m, hm⟩ == '!') ||
         (chars.get ⟨m, hm⟩ == '?')) = false) →
      i + k ≤ chars.length → k ≤ fuel →
      split_go chars fuel i current sentences =
        split_go chars (fuel - k) (i + k)
          (((chars.drop i).take k).reverse ++ current) sentences := by
  intro k
  induction k with
  | zero =>
    intro i fuel current sentences _ _ _
    simp
  | succ k ih =>
    intro i fuel current sentences hnp hle hfuel
    have hi : i < chars.length := by omega
    obtain ⟨fuel2, rfl⟩ : ∃ f2, fuel = f2 + 1 := ⟨fuel - 1, by omega⟩
    rw [split_go_step_nonpunct chars fuel2 i current sentences hi
      (hnp i (le_refl i) (by omega) hi)]
    have h1 : fuel2 + 1 - (k + 1) = fuel2 - k := by omega
    have h2 : i + (k + 1) = i + 1 + k := by omega
    have h3 : ((chars.drop i).take (k + 1)).reverse ++ current =
        ((chars.drop (i + 1)).take k).reverse ++
          (chars.get ⟨i, hi⟩ :: current) := by
      rw [List.drop_eq_getElem_cons hi, List.take_succ_cons,
        List.reverse_cons, List.append_assoc]
      simp [List.get_eq_getElem]
    rw [h1, h2, h3]
    exact ih (i + 1) fuel2 (chars.get ⟨i, hi⟩ :: current) sentences
      (fun m hm1 hm2 hm3 => hnp m (by omega) (by omega) hm3)
      (by omega) (by omega)

theorem split_into_sentences_no_punct (text : List Char)
    (hp : ∀ c ∈ text, c ≠ '.' ∧ c ≠ '!' ∧ c ≠ '?') :
    split_into_sentences text =
      if myTrim text ≠ [] ∧ 10 < (myTrim text).length
      then [myTrim text] else [] := by
  rw [split_into_sentences]
  rw [split_go_run text text.length 0 text.length [] []
    (fun m hm1 hm2 hm3 => by
      obtain ⟨h1, h2, h3⟩ := hp (text.get ⟨m, hm3⟩) (text.get_mem m hm3)
      simp only [List.get_eq_getElem] at h1 h2 h3
      simp [h1, h2, h3])
    (by omega) (le_refl _)]
  rw [split_go_finish _ _ _ _ _ (by omega)]
  simp

/-! ## clean_text structure lemmas -/

theorem splitOnChar_ne_nil (sep : Char) : ∀ l, splitOnChar sep l ≠ []
  | [] => by simp [splitOnChar]
  | c :: rest => by
    rw [splitOnChar]
    by_cases h : (c == sep) = true
    · rw [if_pos h]
      simp
    · rw [if_neg h]
      cases splitOnChar sep rest <;> simp [consHead]

theorem mem_splitOnChar (sep : Char) :
    ∀ (l : List Char), ∀ seg ∈ splitOnChar sep l, ∀ c ∈ seg, c ∈ l
  | [] => by
    intro seg hseg c hc
    rw [splitOnChar] at hseg
    simp only [List.mem_singleton] at hseg
    subst hseg
    simp at hc
  | x :: xs => by
    intro seg hseg c hc
    rw [splitOnChar] at hseg
    by_cases hx : (x == sep) = true
    · rw [if_pos hx] at hseg
      rcases List.mem_cons.mp hseg with rfl | hseg
      · simp at hc
      · exact List.mem_cons_of_mem _ (mem_splitOnChar sep xs seg hseg c hc)
    · rw [if_neg hx] at hseg
      cases hsp : splitOnChar sep xs with
      | nil => exact absurd hsp (splitOnChar_ne_nil sep xs)
      | cons s ss =>
        rw [hsp, consHead] at hseg
        rcases List.mem_cons.mp hseg with rfl | hseg
        · rcases List.mem_cons.mp hc with rfl | hc
          · exact List.mem_cons_self ..
          · have : c ∈ xs := mem_splitOnChar sep xs s (by rw [hsp]; simp) c hc
            exact List.mem_cons_of_mem _ this
        · have : c ∈ xs := mem_splitOnChar sep xs seg
            (by rw [hsp]; exact List.mem_cons_of_mem _ hseg) c hc
          exact List.mem_cons_of_mem _ this

theorem mem_joinSp (l : List (List Char)) :
    ∀ c ∈ joinSp l, (∃ s ∈ l, c ∈ s) ∨ c = ' ' := by
  induction l with
  | nil => simp [joinSp]
  | cons s rest ih =>
    intro c hc
    cases rest with
    | nil => exact Or.inl ⟨s, by simp, hc⟩
    | cons t ts =>
      rw [joinSp_cons _ _ (by simp)] at hc
      rcases List.mem_append.mp hc with hc | hc
      · exact Or.inl ⟨s, by simp, hc⟩
      · rcases List.mem_cons.mp hc with rfl | hc
        · exact Or.inr rfl
        · rcases ih c hc with ⟨u, hu, hcu⟩ | rfl
          · exact Or.inl ⟨u, List.mem_cons_of_mem _ hu, hcu⟩
          · exact Or.inr rfl

theorem mem_replaceDoubleSpace :
    ∀ (l : List Char), ∀ c ∈ replaceDoubleSpace l, c ∈ l
  | [] => by simp [replaceDoubleSpace]
  | [c0] => by simp [replaceDoubleSpace]
  | c1 :: c2 :: rest => by
    intro c hc
    rw [replaceDoubleSpace] at hc
    by_cases h : (c1 == ' ' && c2 == ' ') = true
    · rw [if_pos h] at hc
      rcases List.mem_cons.mp hc with rfl | hc
      · have hc1 : c1 = ' ' := by
          have := (Bool.and_eq_true ..).mp h
          exact eq_of_beq this.1
        rw [← hc1]
        exact List.mem_cons_self ..
      · exact List.mem_cons_of_mem _
          (List.mem_cons_of_mem _ (mem_replaceDoubleSpace rest c hc))
    · rw [if_neg h] at hc
      rcases List.mem_cons.mp hc with rfl | hc
      · exact List.mem_cons_self ..
      · exact List.mem_cons_of_mem _ (mem_replaceDoubleSpace (c2 :: rest) c hc)

theorem replaceDoubleSpace_eq_self :
    ∀ (l : List Char), (∀ c ∈ l, c ≠ ' ') → replaceDoubleSpace l = l
  | [], _ => rfl
  | [c0], _ => rfl
  | c1 :: c2 :: rest, h => by
    rw [replaceDoubleSpace, if_neg (by
      have h1 : c1 ≠ ' ' := h c1 (List.mem_cons_self ..)
      simp [h1])]
    rw [replaceDoubleSpace_eq_self (c2 :: rest)
      (fun d hd => h d (List.mem_cons_of_mem _ hd))]

theorem splitOnChar_no_sep (sep : Char) :
    ∀ (l : List Char), (∀ c ∈ l, c ≠ sep) → splitOnChar sep l = [l]
  | [], _ => rfl
  | c :: rest, h => by
    rw [splitOnChar, if_neg (by simp [h c (List.mem_cons_self ..)]),
      splitOnChar_no_sep sep rest (fun d hd => h d (List.mem_cons_of_mem _ hd))]
    rfl

theorem clean_text_mem (text : List Char) (c : Char)
    (h : c ∈ clean_text text) : c ∈ text ∨ c = ' ' := by
  rw [clean_text] at h
  have h1 := mem_myTrim _ _ h
  have h2 := mem_replaceDoubleSpace _ _ h1
  rcases mem_joinSp _ _ h2 with ⟨s, hs, hcs⟩ | hsp
  · have hs2 := (List.mem_filter.mp hs).1
    obtain ⟨seg, hseg, rfl⟩ := List.mem_map.mp hs2
    exact Or.inl (mem_splitOnChar _ _ seg hseg c (mem_myTrim _ _ hcs))
  · exact Or.inr hsp

theorem clean_text_nil_of_allWs (text : List Char)
    (h : ∀ c ∈ text, isWs c = true) : clean_text text = [] := by
  rw [clean_text]
  have hf : ((splitOnChar '\n' text).map myTrim).filter
      (fun l => !l.isEmpty) = [] := by
    rw [List.filter_eq_nil_iff]
    intro s hs
    obtain ⟨seg, hseg, rfl⟩ := List.mem_map.mp hs
    have hnil : myTrim seg = [] := myTrim_nil_of_allWs seg
      (fun c hc => h c (mem_splitOnChar _ _ seg hseg c hc))
    simp [hnil]
  rw [hf]
  rfl

theorem myTrim_ne_nil_of_clean (text : List Char)
    (h : clean_text text ≠ []) : myTrim text ≠ [] := by
  intro h0
  exact h (clean_text_nil_of_allWs text (allWs_of_myTrim_nil text h0))

theorem clean_text_of_plain (l : List Char) (hnw : ∀ c ∈ l, isWs c = false) :
    clean_text l = l := by
  cases hl : l with
  | nil => rfl
  | cons x xs =>
    rw [← hl]
    have hln : l ≠ [] := by rw [hl]; simp
    have htr : myTrim l = l := by
      refine myTrim_eq_self l ?_ ?_
      · intro c hc
        exact hnw c (List.mem_of_mem_head? hc)
      · intro c hc
        exact hnw c (List.mem_of_mem_getLast? hc)
    rw [clean_text, splitOnChar_no_sep '\n' l (fun c hc he => by
      have := hnw c hc
      rw [he] at this
      simp [isWs] at this)]
    rw [List.map_singleton, htr]
    have hfil : List.filter (fun l => !l.isEmpty) [l] = [l] := by
      rw [List.filter_cons, if_pos (by simp [hln]), List.filter_nil]
    rw [hfil]
    show myTrim (replaceDoubleSpace (joinSp [l])) = l
    have hj : joinSp [l] = l := rfl
    rw [hj, replaceDoubleSpace_eq_self l (fun c hc he => by
      have := hnw c hc
      rw [he] at this
      simp [isWs] at this), htr]

/-! ## Oversized single sentences: C5 -/

theorem chunk_single_big (s : List Char) (htr : myTrim s = s) (hne : s ≠ [])
    (hbig : MAX_CHUNK_SIZE < s.length) :
    chunk_finalize (chunk_step ⟨[], [], []⟩ s) = [s] := by
  rw [chunk_step_eq, htr, if_neg hne, if_neg (by simp)]
  have happ : appendSentence ([] : List Char) s = s := by
    rw [appendSentence, if_pos rfl]
  show chunk_finalize (if CHUNK_SIZE ≤ (appendSentence [] s).length ∧
      is_good_chunk_boundary s = true
    then close_chunk ⟨[], appendSentence [] s, [] ++ [s]⟩
    else ⟨[], appendSentence [] s, [] ++ [s]⟩) = [s]
  rw [happ]
  have hov : create_sentence_overlap ([] ++ [s]) = [] := by
    rw [List.nil_append, create_sentence_overlap, if_neg (by simp)]
    rw [List.reverse_singleton, overlap_go,
      if_neg (by rw [CHUNK_OVERLAP]; rw [MAX_CHUNK_SIZE] at hbig; omega)]
  by_cases hg : is_good_chunk_boundary s = true
  · rw [if_pos ⟨by rw [CHUNK_SIZE]; rw [MAX_CHUNK_SIZE] at hbig; omega, hg⟩]
    rw [chunk_finalize, close_chunk_current, close_chunk_chunks]
    show (if MIN_CHUNK_SIZE ≤ (myTrim (create_sentence_overlap ([] ++ [s]))).length
      then ([] ++ [myTrim s]) ++ [myTrim (create_sentence_overlap ([] ++ [s]))]
      else [] ++ [myTrim s]) = [s]
    rw [hov, if_neg (by rw [MIN_CHUNK_SIZE]; simp [myTrim, trimLeft]), htr,
      List.nil_append]
  · rw [if_neg (fun h => hg h.2)]
    rw [chunk_finalize]
    show (if MIN_CHUNK_SIZE ≤ (myTrim (appendSentence [] s)).length
      then [] ++ [myTrim (appendSentence [] s)] else []) = [s]
    rw [happ, htr,
      if_pos (by rw [MIN_CHUNK_SIZE]; rw [MAX_CHUNK_SIZE] at hbig; omega),
      List.nil_append]

theorem chunk_text_no_punct_aux (text : List Char)
    (hp : ∀ c ∈ text, c ≠ '.' ∧ c ≠ '!' ∧ c ≠ '?')
    (hlen : MAX_CHUNK_SIZE < (clean_text text).length) :
    chunk_text text = [clean_text text] := by
  have hclean_ne : clean_text text ≠ [] := by
    intro h
    rw [h] at hlen
    rw [MAX_CHUNK_SIZE] at hlen
    simp at hlen
  have htext_ne : myTrim text ≠ [] := myTrim_ne_nil_of_clean text hclean_ne
  have hcleanp : ∀ c ∈ clean_text text, c ≠ '.' ∧ c ≠ '!' ∧ c ≠ '?' := by
    intro c hc
    rcases clean_text_mem text c hc with hc2 | rfl
    · exact hp c hc2
    · exact ⟨by decide, by decide, by decide⟩
  have htrimclean : myTrim (clean_text text) = clean_text text := by
    rw [clean_text]
    exact myTrim_idem _
  have hsplit : split_into_sentences (clean_text text) = [clean_text text] := by
    rw [split_into_sentences_no_punct _ hcleanp, htrimclean,
      if_pos ⟨hclean_ne, by rw [MAX_CHUNK_SIZE] at hlen; omega⟩]
  rw [chunk_text, if_neg htext_ne, if_neg (by rw [hsplit]; simp), hsplit,
    List.foldl_cons, List.foldl_nil]
  exact chunk_single_big (clean_text text) htrimclean hclean_ne hlen

/-- C5 (amended): for input without sentence-ending punctuation whose
normalized length exceeds `MAX_CHUNK_SIZE`, `chunk_text` terminates (the
model is a total function) but does NOT force-split: it returns a single
chunk holding the entire normalized text. -/
theorem chunk_text_no_punct (text : List Char)
    (hp : ∀ c ∈ text, c ≠ '.' ∧ c ≠ '!' ∧ c ≠ '?')
    (hlen : MAX_CHUNK_SIZE < (clean_text text).length) :
    chunk_text text = [clean_text text] :=
  chunk_text_no_punct_aux text hp hlen

theorem clean_text_cexText5 : clean_text cexText5 = cexText5 := by
  rw [cexText5]
  refine clean_text_of_plain _ ?_
  intro c hc
  rw [List.eq_of_mem_replicate hc]
  rfl

/-- Witness for C5 (amended): 1600 letters without punctuation come back as
the single normalized chunk. -/
theorem chunk_text_no_punct_witness :
    chunk_text cexText5 = [clean_text cexText5] :=
  chunk_text_no_punct cexText5
    (fun c hc => by
      rw [cexText5] at hc
      rw [List.eq_of_mem_replicate hc]
      exact ⟨by decide, by decide, by decide⟩)
    (by
      rw [clean_text_cexText5, cexText5, List.length_replicate, MAX_CHUNK_SIZE]
      omega)

/-- C5 counterexample: a punctuation-free 1600-character text — normalized
length above the maximum chunk size — yields exactly one (oversized) chunk,
not a forced split into several chunks. -/
theorem chunk_text_no_punct_counterexample :
    (∀ c ∈ cexText5, c ≠ '.' ∧ c ≠ '!' ∧ c ≠ '?') ∧
    MAX_CHUNK_SIZE < (clean_text cexText5).length ∧
    (chunk_text cexText5).length = 1 := by
  have hp : ∀ c ∈ cexText5, c ≠ '.' ∧ c ≠ '!' ∧ c ≠ '?' := fun c hc => by
    rw [cexText5] at hc
    rw [List.eq_of_mem_replicate hc]
    exact ⟨by decide, by decide, by decide⟩
  have hlen : MAX_CHUNK_SIZE < (clean_text cexText5).length := by
    rw [clean_text_cexText5, cexText5, List.length_replicate, MAX_CHUNK_SIZE]
    omega
  refine ⟨hp, hlen, ?_⟩
  rw [chunk_text_no_punct_aux cexText5 hp hlen]
  rfl

/-! ## The oversized-sentence counterexample input -/

theorem skipAhead_stop (chars : List Char) (i : Nat) (hi : i < chars.length)
    (c : Char) (hvc : chars.get ⟨i, hi⟩ = c)
    (hc : (c == ' ' || c == '\t' || c == '\n' || c == '"' || c == '\'' ||
      c == ')' || c == ']' || c == '}') = false) :
    skipAhead chars i = i := by
  rw [skipAhead]
  obtain ⟨f, hf⟩ : ∃ f, chars.length - i = f + 1 := ⟨chars.length - i - 1, by omega⟩
  rw [hf, skipAheadFuel, dif_pos hi, hvc]
  simp [hc]

theorem skipAhead_end (chars : List Char) (i : Nat) (hi : chars.length ≤ i) :
    skipAhead chars i = i := by
  rw [skipAhead]
  have h0 : chars.length - i = 0 := by omega
  rw [h0, skipAheadFuel]

theorem swallowTrailing_stop (chars : List Char) (i : Nat) (acc : List Char)
    (hi : i < chars.length) (c : Char) (hvc : chars.get ⟨i, hi⟩ = c)
    (hc : (c == '"' || c == '\'' || c == ')' || c == ']' || c == '}' ||
      c == ' ' || c == '\t') = false) :
    swallowTrailing chars i acc = (acc, 0) := by
  rw [swallowTrailing]
  obtain ⟨f, hf⟩ : ∃ f, chars.length - i = f + 1 := ⟨chars.length - i - 1, by omega⟩
  rw [hf, swallowTrailingFuel, dif_pos hi, hvc]
  simp [hc]

theorem swallowTrailing_end (chars : List Char) (i : Nat) (acc : List Char)
    (hi : chars.length ≤ i) : swallowTrailing chars i acc = (acc, 0) := by
  rw [swallowTrailing]
  have h0 : chars.length - i = 0 := by omega
  rw [h0, swallowTrailingFuel]

theorem getElem?_replicate_append_left (n i : Nat) (a : Char) (l : List Char)
    (h : i < n) : (List.replicate n a ++ l)[i]? = some a := by
  rw [List.getElem?_append_left (by simpa using h)]
  simp [List.getElem?_replicate, h]

theorem getElem?_replicate_append_right (n j : Nat) (a : Char)
    (l : List Char) : (List.replicate n a ++ l)[n + j]? = l[j]? := by
  rw [List.getElem?_append_right (by simp)]
  simp

theorem get_of_getElem? (l : List Char) (i : Nat) (hi : i < l.length)
    (c : Char) (h : l[i]? = some c) : l.get ⟨i, hi⟩ = c := by
  rw [List.get_eq_getElem]
  rw [List.getElem?_eq_getElem hi] at h
  injection h

theorem cexText4_eq : cexText4 =
    List.replicate 1500 'a' ++ '.' :: (List.replicate 100 'B' ++ ['.']) := by
  rw [cexText4, cexS1, cexS2]
  simp

theorem cexText4_length : cexText4.length = 1602 := by
  rw [cexText4_eq]
  simp

theorem cexS1_length : cexS1.length = 1501 := by
  rw [cexS1]
  simp

theorem cexS2_length : cexS2.length = 101 := by
  rw [cexS2]
  simp

theorem cexText4_at_lt1500 (m : Nat) (hm : m < 1500) :
    cexText4[m]? = some 'a' := by
  rw [cexText4_eq]
  exact getElem?_replicate_append_left 1500 m 'a' _ hm

theorem cexText4_at_1500 : cexText4[1500]? = some '.' := by
  rw [cexText4_eq, show (1500 : Nat) = 1500 + 0 from rfl,
    getElem?_replicate_append_right]
  rfl

theorem cexText4_at_B (m : Nat) (h1 : 1501 ≤ m) (h2 : m ≤ 1600) :
    cexText4[m]? = some 'B' := by
  rw [cexText4_eq, List.getElem?_append_right (by simp; omega)]
  have hm : m - (List.replicate 1500 'a').length = (m - 1501) + 1 := by
    simp
    omega
  rw [hm, List.getElem?_cons_succ]
  exact getElem?_replicate_append_left 100 (m - 1501) 'B' _ (by omega)

theorem cexText4_at_1601 : cexText4[1601]? = some '.' := by
  rw [cexText4_eq, show (1601 : Nat) = 1500 + 101 from rfl,
    getElem?_replicate_append_right, show (101 : Nat) = 100 + 1 from rfl,
    List.getElem?_cons_succ, show (100 : Nat) = 100 + 0 from rfl,
    getElem?_replicate_append_right]
  rfl

theorem cexText4_getD_1500 : cexText4.getD 1500 ' ' = '.' := by
  rw [List.getD_eq_getElem?_getD, cexText4_at_1500]
  rfl

theorem cexText4_getD_1499 : cexText4.getD 1499 ' ' = 'a' := by
  rw [List.getD_eq_getElem?_getD, cexText4_at_lt1500 1499 (by omega)]
  rfl

theorem cexText4_getD_1501 : cexText4.getD 1501 ' ' = 'B' := by
  rw [List.getD_eq_getElem?_getD, cexText4_at_B 1501 (by omega) (by omega)]
  rfl

theorem cexText4_getD_1600 : cexText4.getD 1600 ' ' = 'B' := by
  rw [List.getD_eq_getElem?_getD, cexText4_at_B 1600 (by omega) (by omega)]
  rfl

theorem cexText4_getD_1601 : cexText4.getD 1601 ' ' = '.' := by
  rw [List.getD_eq_getElem?_getD, cexText4_at_1601]
  rfl

theorem cexText4_before_1500 :
    (cexText4.drop 1490).take 10 = List.replicate 10 'a' := by
  rw [cexText4_eq, List.drop_append_eq_append_drop, List.drop_replicate]
  norm_num

theorem cexText4_before_1601 :
    (cexText4.drop 1591).take 10 = List.replicate 10 'B' := by
  rw [cexText4_eq, List.drop_append_eq_append_drop, List.drop_replicate]
  norm_num
  rw [List.drop_append_eq_append_drop, List.drop_replicate]
  norm_num

theorem cexText4_get_1500 (h : 1500 < cexText4.length) :
    cexText4.get ⟨1500, h⟩ = '.' :=
  get_of_getElem? _ _ h _ cexText4_at_1500

theorem cexText4_get_1501 (h : 1501 < cexText4.length) :
    cexText4.get ⟨1501, h⟩ = 'B' :=
  get_of_getElem? _ _ h _ (cexText4_at_B 1501 (by omega) (by omega))

theorem cexText4_get_1601 (h : 1601 < cexText4.length) :
    cexText4.get ⟨1601, h⟩ = '.' :=
  get_of_getElem? _ _ h _ cexText4_at_1601

theorem skipAhead_cexText4_1501 : skipAhead cexText4 1501 = 1501 :=
  skipAhead_stop cexText4 1501 (by rw [cexText4_length]; omega) 'B'
    (cexText4_get_1501 _) (by decide)

theorem is_sentence_end_cexText4_1500 :
    is_sentence_end cexText4 1500 = true := by
  rw [is_sentence_end]
  simp only [cexText4_getD_1500, show (1500 : Nat) - 10 = 1490 from rfl,
    show (1500 : Nat) - (1500 - 10) = 10 from rfl,
    show (1500 : Nat) - 1 = 1499 from rfl,
    show (1500 : Nat) + 1 = 1501 from rfl,
    cexText4_before_1500, cexText4_getD_1499, cexText4_getD_1501,
    skipAhead_cexText4_1501, cexText4_length]
  decide

theorem is_sentence_end_cexText4_1601 :
    is_sentence_end cexText4 1601 = true := by
  rw [is_sentence_end]
  simp only [cexText4_getD_1601, show (1601 : Nat) - 10 = 1591 from rfl,
    show (1601 : Nat) - (1601 - 10) = 10 from rfl,
    show (1601 : Nat) - 1 = 1600 from rfl,
    show (1601 : Nat) + 1 = 1602 from rfl,
    cexText4_before_1601, cexText4_getD_1600,
    skipAhead_end cexText4 1602 (by rw [cexText4_length]), cexText4_length]
  decide

theorem myTrim_eq_self_of_no_ws (l : List Char)
    (h : ∀ c ∈ l, isWs c = false) : myTrim l = l :=
  myTrim_eq_self l (fun c hc => h c (List.mem_of_mem_head? hc))
    (fun c hc => h c (List.mem_of_mem_getLast? hc))

theorem mem_cexS1 (c : Char) (h : c ∈ cexS1) : c = 'a' ∨ c = '.' := by
  rw [cexS1] at h
  rcases List.mem_append.mp h with h | h
  · exact Or.inl (List.eq_of_mem_replicate h)
  · simp only [List.mem_singleton] at h
    exact Or.inr h

theorem mem_cexS2 (c : Char) (h : c ∈ cexS2) : c = 'B' ∨ c = '.' := by
  rw [cexS2] at h
  rcases List.mem_append.mp h with h | h
  · exact Or.inl (List.eq_of_mem_replicate h)
  · simp only [List.mem_singleton] at h
    exact Or.inr h

theorem myTrim_cexS1 : myTrim cexS1 = cexS1 :=
  myTrim_eq_self_of_no_ws cexS1 (fun c hc => by
    rcases mem_cexS1 c hc with rfl | rfl <;> rfl)

theorem myTrim_cexS2 : myTrim cexS2 = cexS2 :=
  myTrim_eq_self_of_no_ws cexS2 (fun c hc => by
    rcases mem_cexS2 c hc with rfl | rfl <;> rfl)

theorem cexS1_ne_nil : cexS1 ≠ [] := by
  rw [cexS1]
  simp

theorem cexS2_ne_nil : cexS2 ≠ [] := by
  rw [cexS2]
  simp

theorem split_cexText4 : split_into_sentences cexText4 = [cexS1, cexS2] := by
  rw [split_into_sentences, cexText4_length]
  rw [split_go_run cexText4 1500 0 1602 [] []
    (fun m hm1 hm2 hm3 => by
      rw [get_of_getElem? cexText4 m hm3 'a' (cexText4_at_lt1500 m (by omega))]
      decide)
    (by rw [cexText4_length]; omega) (by omega)]
  rw [show (1602 : Nat) - 1500 = 102 from rfl,
    show (0 : Nat) + 1500 = 1500 from rfl]
  have hcur1 : ((cexText4.drop 0).take 1500).reverse ++ ([] : List Char) =
      List.replicate 1500 'a' := by
    rw [List.drop_zero, cexText4_eq,
      List.take_append_of_le_length (by simp), List.take_replicate,
      List.append_nil]
    norm_num [List.reverse_replicate]
  rw [hcur1]
  rw [show (102 : Nat) = 101 + 1 from rfl]
  rw [split_go_step_punct cexText4 101 1500 (List.replicate 1500 'a') []
    (by rw [cexText4_length]; omega)
    (by rw [cexText4_get_1500]; decide) is_sentence_end_cexText4_1500]
  rw [cexText4_get_1500, show (1500 : Nat) + 1 = 1501 from rfl]
  have hsw1 : swallowTrailing cexText4 1501 ('.' :: List.replicate 1500 'a') =
      ('.' :: List.replicate 1500 'a', 0) :=
    swallowTrailing_stop cexText4 1501 _ (by rw [cexText4_length]; omega) 'B'
      (cexText4_get_1501 _) (by decide)
  rw [hsw1]
  have hrev1 : ('.' :: List.replicate 1500 'a').reverse = cexS1 := by
    rw [List.reverse_cons, List.reverse_replicate, cexS1]
  show (if myTrim ('.' :: List.replicate 1500 'a').reverse ≠ [] ∧
      10 < (myTrim ('.' :: List.replicate 1500 'a').reverse).length
    then split_go cexText4 101 (1501 + 0) []
      ([] ++ [myTrim ('.' :: List.replicate 1500 'a').reverse])
    else split_go cexText4 101 (1501 + 0) [] []) = [cexS1, cexS2]
  rw [hrev1, myTrim_cexS1,
    if_pos ⟨cexS1_ne_nil, by rw [cexS1_length]; omega⟩,
    show (1501 : Nat) + 0 = 1501 from rfl, List.nil_append]
  rw [split_go_run cexText4 100 1501 101 [] [cexS1]
    (fun m hm1 hm2 hm3 => by
      rw [get_of_getElem? cexText4 m hm3 'B'
        (cexText4_at_B m (by omega) (by omega))]
      decide)
    (by rw [cexText4_length]; omega) (by omega)]
  rw [show (101 : Nat) - 100 = 1 from rfl,
    show (1501 : Nat) + 100 = 1601 from rfl]
  have hcur2 : ((cexText4.drop 1501).take 100).reverse ++ ([] : List Char) =
      List.replicate 100 'B' := by
    rw [cexText4_eq, List.drop_append_eq_append_drop, List.drop_replicate,
      List.append_nil]
    norm_num
  rw [hcur2]
  rw [show (1 : Nat) = 0 + 1 from rfl]
  rw [split_go_step_punct cexText4 0 1601 (List.replicate 100 'B') [cexS1]
    (by rw [cexText4_length]; omega)
    (by rw [cexText4_get_1601]; decide) is_sentence_end_cexText4_1601]
  rw [cexText4_get_1601, show (1601 : Nat) + 1 = 1602 from rfl]
  have hsw2 : swallowTrailing cexText4 1602 ('.' :: List.replicate 100 'B') =
      ('.' :: List.replicate 100 'B', 0) :=
    swallowTrailing_end _ _ _ (by rw [cexText4_length])
  rw [hsw2]
  have hrev2 : ('.' :: List.replicate 100 'B').reverse = cexS2 := by
    rw [List.reverse_cons, List.reverse_replicate, cexS2]
  show (if myTrim ('.' :: List.replicate 100 'B').reverse ≠ [] ∧
      10 < (myTrim ('.' :: List.replicate 100 'B').reverse).length
    then split_go cexText4 0 (1602 + 0) []
      ([cexS1] ++ [myTrim ('.' :: List.replicate 100 'B').reverse])
    else split_go cexText4 0 (1602 + 0) [] [cexS1]) = [cexS1, cexS2]
  rw [hrev2, myTrim_cexS2,
    if_pos ⟨cexS2_ne_nil, by rw [cexS2_length]; omega⟩,
    show (1602 : Nat) + 0 = 1602 from rfl]
  rw [split_go_finish cexText4 0 1602 [] ([cexS1] ++ [cexS2])
    (by rw [cexText4_length])]
  simp [myTrim, trimLeft]

theorem infix_of_containsList : ∀ (l pat : List Char),
    containsList l pat = true → pat <:+: l
  | [], pat => by
    rw [containsList]
    intro h
    rw [List.isEmpty_iff] at h
    rw [h]
  | c :: rest, pat => by
    rw [containsList]
    intro h
    rcases Bool.or_eq_true_iff.mp h with h | h
    · exact (List.isPrefixOf_iff_prefix.mp h).isInfix
    · exact List.infix_cons (infix_of_containsList rest pat h)

theorem containsList_eq_false (l pat : List Char) (c : Char) (hc : c ∈ pat)
    (hnc : c ∉ l) : containsList l pat = false := by
  cases h : containsList l pat with
  | false => rfl
  | true => exact absurd ((infix_of_containsList l pat h).subset hc) hnc

theorem isSuffixOf_eq_false (l pat : List Char) (c : Char) (hc : c ∈ pat)
    (hnc : c ∉ l) : pat.isSuffixOf l = false := by
  cases h : pat.isSuffixOf l with
  | false => rfl
  | true => exact absurd ((List.isSuffixOf_iff_suffix.mp h).subset hc) hnc

theorem not_mem_cexS1 (c : Char) (h1 : c ≠ 'a') (h2 : c ≠ '.') :
    c ∉ cexS1 := fun h => by
  rcases mem_cexS1 c h with rfl | rfl
  · exact h1 rfl
  · exact h2 rfl

theorem lower_cexS1 : cexS1.map Char.toLower = cexS1 := by
  rw [cexS1, List.map_append, List.map_replicate,
    show Char.toLower 'a' = 'a' from by decide,
    show List.map Char.toLower ['.'] = ['.'] from by decide]

theorem is_good_cexS1 : is_good_chunk_boundary cexS1 = true := by
  have h1 := containsList_eq_false cexS1 "therefore".toList 't' (by decide)
    (not_mem_cexS1 't' (by decide) (by decide))
  have h2 := containsList_eq_false cexS1 "thus".toList 't' (by decide)
    (not_mem_cexS1 't' (by decide) (by decide))
  have h3 := containsList_eq_false cexS1 "finally".toList 'f' (by decide)
    (not_mem_cexS1 'f' (by decide) (by decide))
  have h4 := containsList_eq_false cexS1 "in conclusion".toList 'i' (by decide)
    (not_mem_cexS1 'i' (by decide) (by decide))
  have h5 := isSuffixOf_eq_false cexS1 "wins.".toList 'w' (by decide)
    (not_mem_cexS1 'w' (by decide) (by decide))
  have h6 := isSuffixOf_eq_false cexS1 "wins!".toList 'w' (by decide)
    (not_mem_cexS1 'w' (by decide) (by decide))
  have h7 := isSuffixOf_eq_false cexS1 "complete.".toList 'c' (by decide)
    (not_mem_cexS1 'c' (by decide) (by decide))
  have h8 := isSuffixOf_eq_false cexS1 "finished.".toList 'f' (by decide)
    (not_mem_cexS1 'f' (by decide) (by decide))
  have h9 := containsList_eq_false cexS1 "first".toList 'f' (by decide)
    (not_mem_cexS1 'f' (by decide) (by decide))
  have h10 := containsList_eq_false cexS1 "then".toList 't' (by decide)
    (not_mem_cexS1 't' (by decide) (by decide))
  have h11 := containsList_eq_false cexS1 "next".toList 'n' (by decide)
    (not_mem_cexS1 'n' (by decide) (by decide))
  have h12 := containsList_eq_false cexS1 "after".toList 'f' (by decide)
    (not_mem_cexS1 'f' (by decide) (by decide))
  have h13 := containsList_eq_false cexS1 "before".toList 'b' (by decide)
    (not_mem_cexS1 'b' (by decide) (by decide))
  have h14 := isSuffixOf_eq_false cexS1 ":".toList ':' (by decide)
    (not_mem_cexS1 ':' (by decide) (by decide))
  simp only [is_good_chunk_boundary, lower_cexS1, h1, h2, h3, h4, h5, h6, h7,
    h8, h9, h10, h11, h12, h13, h14]
  decide

theorem mem_cexText4 (c : Char) (h : c ∈ cexText4) :
    c = 'a' ∨ c = '.' ∨ c = 'B' := by
  rw [cexText4] at h
  rcases List.mem_append.mp h with h | h
  · rcases mem_cexS1 c h with h | h
    · exact Or.inl h
    · exact Or.inr (Or.inl h)
  · rcases mem_cexS2 c h with h | h
    · exact Or.inr (Or.inr h)
    · exact Or.inr (Or.inl h)

theorem clean_cexText4 : clean_text cexText4 = cexText4 :=
  clean_text_of_plain cexText4 (fun c hc => by
    rcases mem_cexText4 c hc with rfl | rfl | rfl <;> rfl)

theorem myTrim_cexText4 : myTrim cexText4 = cexText4 :=
  myTrim_eq_self_of_no_ws cexText4 (fun c hc => by
    rcases mem_cexText4 c hc with rfl | rfl | rfl <;> rfl)

theorem cexText4_ne_nil : cexText4 ≠ [] := by
  rw [cexText4_eq]
  simp

theorem chunk_step_cexS1 :
    chunk_step ⟨[], [], []⟩ cexS1 = ⟨[cexS1], [], []⟩ := by
  rw [chunk_step_eq, myTrim_cexS1, if_neg cexS1_ne_nil, if_neg (by simp)]
  show (if CHUNK_SIZE ≤ (appendSentence [] cexS1).length ∧
      is_good_chunk_boundary cexS1 = true
    then close_chunk ⟨[], appendSentence [] cexS1, [] ++ [cexS1]⟩
    else ⟨[], appendSentence [] cexS1, [] ++ [cexS1]⟩) = ⟨[cexS1], [], []⟩
  have happ : appendSentence ([] : List Char) cexS1 = cexS1 := by
    rw [appendSentence, if_pos rfl]
  rw [happ, if_pos ⟨by rw [CHUNK_SIZE, cexS1_length]; omega, is_good_cexS1⟩]
  have hov : create_sentence_overlap ([] ++ [cexS1]) = [] := by
    rw [List.nil_append, create_sentence_overlap, if_neg (by simp),
      List.reverse_singleton, overlap_go,
      if_neg (by rw [CHUNK_OVERLAP, cexS1_length]; omega)]
  show ChunkState.mk ([] ++ [myTrim cexS1])
      (create_sentence_overlap ([] ++ [cexS1])) [] = ⟨[cexS1], [], []⟩
  rw [hov, myTrim_cexS1, List.nil_append]

theorem chunk_step_cexS2 :
    chunk_step ⟨[cexS1], [], []⟩ cexS2 = ⟨[cexS1], cexS2, [cexS2]⟩ := by
  rw [chunk_step_eq, myTrim_cexS2, if_neg cexS2_ne_nil, if_neg (by simp)]
  show (if CHUNK_SIZE ≤ (appendSentence [] cexS2).length ∧
      is_good_chunk_boundary cexS2 = true
    then close_chunk ⟨[cexS1], appendSentence [] cexS2, [] ++ [cexS2]⟩
    else ⟨[cexS1], appendSentence [] cexS2, [] ++ [cexS2]⟩) =
    ⟨[cexS1], cexS2, [cexS2]⟩
  have happ : appendSentence ([] : List Char) cexS2 = cexS2 := by
    rw [appendSentence, if_pos rfl]
  rw [happ, if_neg (fun h => by
    have h1 := h.1
    rw [CHUNK_SIZE, cexS2_length] at h1
    omega)]
  rw [List.nil_append]

theorem chunk_text_cexText4 : chunk_text cexText4 = [cexS1, cexS2] := by
  rw [chunk_text, if_neg (by rw [myTrim_cexText4]; exact cexText4_ne_nil),
    clean_cexText4, split_cexText4]
  rw [if_neg (by simp)]
  rw [List.foldl_cons, chunk_step_cexS1, List.foldl_cons, chunk_step_cexS2,
    List.foldl_nil]
  rw [chunk_finalize]
  show (if MIN_CHUNK_SIZE ≤ (myTrim cexS2).length
    then [cexS1] ++ [myTrim cexS2] else [cexS1]) = [cexS1, cexS2]
  rw [myTrim_cexS2, if_pos (by rw [MIN_CHUNK_SIZE, cexS2_length]; omega)]
  rfl

/-- C4 counterexample: the 1602-character text of two sentences — 1501
characters of letters closed by a period, then a 101-character sentence —
has sentence boundaries (its normalized form splits into exactly two
sentences), yet `chunk_text` emits its first, NON-final chunk with 1501
characters, above `MAX_CHUNK_SIZE = 1500`: the per-chunk bound claimed for
all non-final chunks fails, because a single sentence longer than the
maximum is never split. -/
theorem chunk_text_oversized_counterexample :
    (split_into_sentences (clean_text cexText4)).length = 2 ∧
    (chunk_text cexText4).length = 2 ∧
    MAX_CHUNK_SIZE < ((chunk_text cexText4).getD 0 []).length := by
  refine ⟨?_, ?_, ?_⟩
  · rw [clean_cexText4, split_cexText4]
    rfl
  · rw [chunk_text_cexText4]
    rfl
  · rw [chunk_text_cexText4]
    have hd : ([cexS1, cexS2] : List (List Char)).getD 0 [] = cexS1 := rfl
    rw [hd, MAX_CHUNK_SIZE, cexS1_length]
    omega

end TabletopAtlas
